import Mathlib

/-!
Verification of the Minesweeper rule engine (`components.py`).

The engine is shallowly embedded: the Python `Board` object becomes a Lean
structure, its mutable cell list becomes a function from grid positions to
cell states (every access in the source goes through the bijective row-major
index on in-bounds positions, so the two views are observationally equal),
and the two uses of the global random source (`random.shuffle` in
`place_mines`, `random.choice` in `hint_reveal`) become explicit function
parameters constrained by hypotheses (a permutation, a membership choice).
The iterative flood fill is embedded with an explicit fuel bound that is
proved sufficient below.
-/

/-- Grid positions `(col, row)`, as in the source's `(c, r)` tuples. -/
abbrev Pos := Int × Int

/-- Mutable state of a single cell (`CellState.__init__` defaults). -/
structure CellState where
  is_mine : Bool := false
  is_revealed : Bool := false
  is_flagged : Bool := false
  adjacent : Nat := 0
deriving DecidableEq, Repr

/-- The default cell state produced by `CellState()` in the source. -/
def CellState.init : CellState := {}

/-- The `Board` object.  The Python cell list `cells: List[Cell]` (row-major,
accessed only through `index(col,row) = row*cols + col` at in-bounds
positions) is embedded as a function from positions to cell states; the
`Cell.col`/`Cell.row` fields are the position itself. -/
structure Board where
  cols : Nat
  rows : Nat
  num_mines : Nat
  cells : Pos → CellState
  mines_placed : Bool
  revealed_count : Nat
  game_over : Bool
  win : Bool

/-- Pointwise update of the cell map, embedding `self.cells[self.index(c,r)].state = v`. -/
def updFn (f : Pos → CellState) (p : Pos) (v : CellState) : Pos → CellState :=
  fun q => if q = p then v else f q

/-- `Board.__init__(cols, rows, mines)`. -/
def Board.new (cols rows mines : Nat) : Board :=
  { cols := cols
    rows := rows
    num_mines := mines
    cells := fun _ => CellState.init
    mines_placed := false
    revealed_count := 0
    game_over := false
    win := false }

/-- `Board.index`: the flat list index for `(col,row)`. -/
def Board.index (b : Board) (col row : Int) : Int :=
  row * (b.cols : Int) + col

/-- `Board.is_inbounds`. -/
def Board.is_inbounds (b : Board) (col row : Int) : Bool :=
  decide (0 ≤ col ∧ col < (b.cols : Int) ∧ 0 ≤ row ∧ row < (b.rows : Int))

/-- The eight compass offsets, in the source's enumeration order. -/
def deltas : List (Int × Int) :=
  [(-1, -1), (0, -1), (1, -1), (-1, 0), (1, 0), (-1, 1), (0, 1), (1, 1)]

/-- `Board.neighbors`: the up-to-8 in-bounds Moore neighbours, in delta order. -/
def Board.neighborsList (b : Board) (col row : Int) : List Pos :=
  (deltas.map (fun d => (col + d.1, row + d.2))).filter (fun q => b.is_inbounds q.1 q.2)

/-- All grid positions in row-major order, matching both the iteration order
of the Python cell list and `all_positions` in `place_mines`. -/
def Board.allPositions (b : Board) : List Pos :=
  (List.range b.rows).flatMap
    (fun r : Nat => (List.range b.cols).map (fun c : Nat => ((c : Int), (r : Int))))

/-- The candidate pool of `place_mines`: all positions outside the forbidden
set (first click plus its in-bounds neighbours). -/
def Board.minePool (b : Board) (safe_col safe_row : Int) : List Pos :=
  b.allPositions.filter
    (fun p => decide (¬(p = (safe_col, safe_row) ∨ p ∈ b.neighborsList safe_col safe_row)))

/-- `mine_positions = set(pool[: self.num_mines])` in `place_mines`:
the first `num_mines` entries of the shuffled pool (`shuf` stands for
`random.shuffle`). -/
def Board.mineList (b : Board) (shuf : List Pos → List Pos) (safe_col safe_row : Int) :
    List Pos :=
  (shuf (b.minePool safe_col safe_row)).take b.num_mines

/-- The cell map after the mine-placement loop of `place_mines` (each chosen
position gets `is_mine = True`), before the adjacency pass. -/
def Board.cellsAfterMines (b : Board) (shuf : List Pos → List Pos) (safe_col safe_row : Int) :
    Pos → CellState := fun p =>
  if p ∈ b.mineList shuf safe_col safe_row then { b.cells p with is_mine := true }
  else b.cells p

/-- `Board.place_mines(safe_col, safe_row)`.  The adjacency pass writes only
the `adjacent` field of in-bounds non-mine cells and reads only `is_mine`
fields (which it never changes), so the Python in-place double loop equals
this pointwise map over the post-placement cells. -/
def Board.place_mines (b : Board) (shuf : List Pos → List Pos) (safe_col safe_row : Int) :
    Board :=
  { b with
    cells := fun p =>
      if b.is_inbounds p.1 p.2 && !(b.cellsAfterMines shuf safe_col safe_row p).is_mine then
        { b.cellsAfterMines shuf safe_col safe_row p with
          adjacent := (b.neighborsList p.1 p.2).countP
            (fun q => (b.cellsAfterMines shuf safe_col safe_row q).is_mine) }
      else b.cellsAfterMines shuf safe_col safe_row p
    mines_placed := true }

/-- One step of the flood fill body: mark `p` revealed and increment
`revealed_count` (`curr.state.is_revealed = True; self.revealed_count += 1`). -/
def Board.revealOne (b : Board) (p : Pos) : Board :=
  { b with
    cells := updFn b.cells p { b.cells p with is_revealed := true }
    revealed_count := b.revealed_count + 1 }

/-- The neighbours pushed after revealing the zero-adjacency cell `p`:
those not revealed and not flagged in the current (post-reveal) state. -/
def Board.floodPushes (b : Board) (p : Pos) : List Pos :=
  (b.neighborsList p.1 p.2).filter
    (fun q => !(b.cells q).is_revealed && !(b.cells q).is_flagged)

/-- The `while stack:` loop of `Board.reveal`, with explicit fuel.  The list
head is the top of the Python stack (`stack.pop()` pops the last element, so
appended neighbours are consed in reverse).  `reveal` supplies fuel
`9*(cols*rows) + 1`, proved sufficient below (`floodLoop_fuel_eq`-style
lemmas take a measure hypothesis). -/
def Board.floodLoop : Board → Nat → List Pos → Board
  | b, _, [] => b
  | b, 0, _ :: _ => b
  | b, fuel + 1, p :: rest =>
    if (b.cells p).is_revealed || (b.cells p).is_flagged then
      b.floodLoop fuel rest
    else if (b.cells p).adjacent = 0 then
      (b.revealOne p).floodLoop fuel (((b.revealOne p).floodPushes p).reverse ++ rest)
    else
      (b.revealOne p).floodLoop fuel rest

/-- `Board._reveal_all_mines`: reveal every (in-bounds) mine cell. -/
def Board.reveal_all_mines (b : Board) : Board :=
  { b with
    cells := fun p =>
      if b.is_inbounds p.1 p.2 && (b.cells p).is_mine then
        { b.cells p with is_revealed := true }
      else b.cells p }

/-- `Board._check_win`: when every non-mine cell is revealed (by count) and
the game is not lost, set `win` and force-reveal the remaining (in-bounds)
non-mine cells.  The count comparison is over `Int`, as in Python. -/
def Board.check_win (b : Board) : Board :=
  if (b.revealed_count : Int) = (b.cols : Int) * (b.rows : Int) - (b.num_mines : Int) ∧
      b.game_over = false then
    { b with
      win := true
      cells := fun p =>
        if b.is_inbounds p.1 p.2 && !(b.cells p).is_revealed && !(b.cells p).is_mine then
          { b.cells p with is_revealed := true }
        else b.cells p }
  else b

/-- The mine branch of `reveal`: mark the clicked mine revealed, set
`game_over`, and sweep all mines revealed (`_reveal_all_mines`). -/
def Board.loseAt (b : Board) (t : Pos) : Board :=
  ({ b with
      cells := updFn b.cells t { b.cells t with is_revealed := true }
      game_over := true }).reveal_all_mines

/-- `Board.reveal(col, row)`. -/
def Board.reveal (b : Board) (shuf : List Pos → List Pos) (col row : Int) : Board :=
  if b.is_inbounds col row = false then b
  else
    let b1 := if b.mines_placed then b else b.place_mines shuf col row
    if (b1.cells (col, row)).is_revealed || (b1.cells (col, row)).is_flagged then b1
    else if (b1.cells (col, row)).is_mine then b1.loseAt (col, row)
    else
      (b1.floodLoop (9 * (b1.cols * b1.rows) + 1) [(col, row)]).check_win

/-- `Board.toggle_flag(col, row)`. -/
def Board.toggle_flag (b : Board) (col row : Int) : Board :=
  if b.is_inbounds col row = false then b
  else if (b.cells (col, row)).is_revealed then b
  else
    { b with
      cells := updFn b.cells (col, row)
        { b.cells (col, row) with is_flagged := !(b.cells (col, row)).is_flagged } }

/-- `Board.flagged_count`. -/
def Board.flagged_count (b : Board) : Nat :=
  b.allPositions.countP (fun p => (b.cells p).is_flagged)

/-- The candidate list of `hint_reveal`: non-mine, unrevealed, unflagged
cells, in the row-major order of the Python cell list. -/
def Board.safeUnrevealed (b : Board) : List Pos :=
  b.allPositions.filter
    (fun p => !(b.cells p).is_mine && !(b.cells p).is_revealed && !(b.cells p).is_flagged)

/-- `Board.hint_reveal()`.  `random.choice(safe_unrevealed)` is the parameter
`pick` (constrained to pick a member in the theorems); `shuf` is threaded to
`reveal` (unused there, since the guard requires mines to be placed). -/
def Board.hint_reveal (b : Board) (shuf : List Pos → List Pos) (pick : List Pos → Pos) :
    Board :=
  if !b.mines_placed || b.game_over || b.win then b
  else if b.safeUnrevealed = [] then b
  else b.reveal shuf (pick b.safeUnrevealed).1 (pick b.safeUnrevealed).2

/-- One externally-triggered transition: any `reveal`, `toggle_flag` or
`hint_reveal` call, with the random source abstracted by hypotheses. -/
inductive Board.Step : Board → Board → Prop where
  | reveal (b : Board) (shuf : List Pos → List Pos)
      (hshuf : ∀ l : List Pos, (shuf l).Perm l) (col row : Int) :
      Board.Step b (b.reveal shuf col row)
  | toggle_flag (b : Board) (col row : Int) :
      Board.Step b (b.toggle_flag col row)
  | hint_reveal (b : Board) (shuf : List Pos → List Pos) (pick : List Pos → Pos)
      (hshuf : ∀ l : List Pos, (shuf l).Perm l)
      (hpick : ∀ l : List Pos, l ≠ [] → pick l ∈ l) :
      Board.Step b (b.hint_reveal shuf pick)

/-- Reachability: obtained from some freshly constructed board by a sequence
of public operations. -/
def Board.Reachable (b : Board) : Prop :=
  ∃ cols rows mines : Nat, Relation.ReflTransGen Board.Step (Board.new cols rows mines) b

/-- A cell that `reveal`'s flood fill may act on: not revealed, not flagged. -/
def Board.ActiveB (b : Board) (p : Pos) : Prop :=
  (b.cells p).is_revealed = false ∧ (b.cells p).is_flagged = false

/-- Positions reachable from `s` by repeatedly stepping from an unrevealed,
unflagged, zero-adjacency cell to one of its neighbours (all with respect to
the pre-reveal board `b`): the region the flood fill actually covers,
together with its border. -/
inductive ZReach (b : Board) (s : Pos) : Pos → Prop where
  | refl : ZReach b s s
  | step {p q : Pos} : ZReach b s p → (b.cells p).is_revealed = false →
      (b.cells p).is_flagged = false → (b.cells p).adjacent = 0 →
      q ∈ b.neighborsList p.1 p.2 → ZReach b s q

/-- The region named by the specification sentence: the connected
zero-adjacency region through `s` in the full grid (ignoring flags and
already-revealed cells), together with its bordering cells. -/
inductive ZReachF (b : Board) (s : Pos) : Pos → Prop where
  | refl : ZReachF b s s
  | step {p q : Pos} : ZReachF b s p → (b.cells p).adjacent = 0 →
      q ∈ b.neighborsList p.1 p.2 → ZReachF b s q

/-- `revealed_count` agrees with the number of revealed non-mine cells. -/
def Board.CountOK (b : Board) : Prop :=
  b.revealed_count =
    b.allPositions.countP (fun p => (b.cells p).is_revealed && !(b.cells p).is_mine)

/-- Every in-bounds non-mine cell's `adjacent` field is the exact count of
its mine neighbours. -/
def Board.AdjOK (b : Board) : Prop :=
  ∀ p : Pos, b.is_inbounds p.1 p.2 = true → (b.cells p).is_mine = false →
    (b.cells p).adjacent = (b.neighborsList p.1 p.2).countP (fun q => (b.cells q).is_mine)

/-- Number of unrevealed positions; the flood-fill termination measure. -/
def Board.unrevCount (b : Board) : Nat :=
  b.allPositions.countP (fun p => !(b.cells p).is_revealed)

/-- The state invariant maintained by every reachable board: before
placement the grid is untouched apart from flags; adjacency counts are
correct; `revealed_count` counts the revealed non-mine cells until the win
sweep; and outside the terminal sweeps no cell is both revealed and
flagged. -/
def Board.Inv (b : Board) : Prop :=
  (b.mines_placed = false →
      (∀ p : Pos, (b.cells p).is_mine = false ∧ (b.cells p).is_revealed = false ∧
        (b.cells p).adjacent = 0) ∧
      b.revealed_count = 0 ∧ b.game_over = false ∧ b.win = false) ∧
  b.AdjOK ∧
  (b.win = false → b.CountOK) ∧
  (b.game_over = false → b.win = false →
    ∀ p : Pos, ¬((b.cells p).is_revealed = true ∧ (b.cells p).is_flagged = true))

/-- Relation between the pre-reveal board `b0` and an intermediate flood-fill
board `b`: the immutable fields agree, revealing is monotone, and every newly
revealed cell was an unrevealed, unflagged cell reachable from the start `s`. -/
structure Board.FloodSound (b0 : Board) (s : Pos) (b : Board) : Prop where
  cols_eq : b.cols = b0.cols
  rows_eq : b.rows = b0.rows
  mine_eq : ∀ p : Pos, (b.cells p).is_mine = (b0.cells p).is_mine
  flag_eq : ∀ p : Pos, (b.cells p).is_flagged = (b0.cells p).is_flagged
  adj_eq : ∀ p : Pos, (b.cells p).adjacent = (b0.cells p).adjacent
  rev_mono : ∀ p : Pos, (b0.cells p).is_revealed = true → (b.cells p).is_revealed = true
  rev_char : ∀ p : Pos, (b.cells p).is_revealed = true →
    (b0.cells p).is_revealed = true ∨
      ((b0.cells p).is_revealed = false ∧ (b0.cells p).is_flagged = false ∧ ZReach b0 s p)


/-- Invariant of the flood loop relative to the pre-reveal board `b0`. -/
def Board.BorderOK (b0 b : Board) (stack : List Pos) : Prop :=
  ∀ q : Pos, (b.cells q).is_revealed = true → (b0.cells q).is_revealed = false →
    (b.cells q).adjacent = 0 →
    ∀ p' ∈ b.neighborsList q.1 q.2,
      (b.cells p').is_revealed = true ∨ (b.cells p').is_flagged = true ∨ p' ∈ stack


/-- The guard of `_check_win`. -/
def Board.CWCond (b : Board) : Prop :=
  (b.revealed_count : Int) = (b.cols : Int) * (b.rows : Int) - (b.num_mines : Int) ∧
    b.game_over = false


/-- The board `reveal` operates on after its lazy-placement step: unchanged
when mines are already placed, otherwise the result of `place_mines` at the
clicked cell. -/
def Board.afterPlacement (b : Board) (shuf : List Pos → List Pos) (col row : Int) : Board :=
  if b.mines_placed then b else b.place_mines shuf col row

/-- A deterministic stand-in for `random.choice`: the head of the candidate
list (used to instantiate the `pick` parameter in witnesses). -/
def headPick (l : List Pos) : Pos := l.headD (0, 0)

/-- A 4-wide one-row game, 1 mine: first click at `(0,0)` places the mine at
`(2,0)` (identity shuffle) and floods `(0,0)`, `(1,0)`; the second click hits
the mine.  A lost game. -/
def bLoss : Board := ((Board.new 4 1 1).reveal id 0 0).reveal id 2 0

/-- A 3-wide one-row game asking for 2 mines: flag `(1,0)`, then click
`(0,0)`.  The forbidden zone leaves a one-cell pool, so only one mine is
placed, and the single flood-revealed cell already triggers the win sweep,
which reveals the still-flagged cell `(1,0)`. -/
def bWinFlag : Board := ((Board.new 3 1 2).toggle_flag 1 0).reveal id 0 0

/-- A 5-wide one-row game, 2 mines, played to a win: reveal `(0,0)` (flood
reveals `(0,0)`, `(1,0)`), then reveal `(4,0)`. -/
def bWin : Board := ((Board.new 5 1 2).reveal id 0 0).reveal id 4 0

/-- The won game `bWin` after clicking the still-hidden mine at `(2,0)`:
`game_over` and `win` are both set. -/
def bBoth : Board := bWin.reveal id 2 0

/-- A 6-wide one-row game, 1 mine at `(3,0)`, after the first click at
`(1,0)` revealed `(0,0)`, `(1,0)`, `(2,0)`. -/
def bSix : Board := (Board.new 6 1 1).reveal id 1 0

/-- `bSix` with a flag on `(4,0)`: the flag blocks the flood fill started at
`(5,0)` from reaching the bordering cell `(4,0)`. -/
def bSixFlag : Board := bSix.toggle_flag 4 0

/-! ### Basic lemmas about the grid representation -/

theorem updFn_same (f : Pos → CellState) (p : Pos) (v : CellState) : updFn f p v p = v := by
  simp [updFn]

theorem updFn_ne (f : Pos → CellState) (p : Pos) (v : CellState) {q : Pos} (h : q ≠ p) :
    updFn f p v q = f q := by
  simp [updFn, h]

theorem Board.mem_allPositions {b : Board} {p : Pos} :
    p ∈ b.allPositions ↔ b.is_inbounds p.1 p.2 = true := by
  obtain ⟨x, y⟩ := p
  simp only [Board.allPositions, List.mem_flatMap, List.mem_map, List.mem_range,
    Board.is_inbounds, decide_eq_true_eq, Prod.mk.injEq]
  constructor
  · rintro ⟨r, hr, c, hc, hcx, hry⟩
    omega
  · rintro ⟨h1, h2, h3, h4⟩
    exact ⟨y.toNat, by omega, x.toNat, by omega, by omega, by omega⟩

theorem Board.allPositions_nodup (b : Board) : b.allPositions.Nodup := by
  refine List.nodup_flatMap.2 ⟨?_, ?_⟩
  · intro r _
    refine List.Nodup.map ?_ (List.nodup_range b.cols)
    intro c c' h
    simpa using congrArg Prod.fst h
  · refine (List.nodup_range b.rows).imp ?_
    intro r r' n x h1 h2
    rcases List.mem_map.1 h1 with ⟨c, _, rfl⟩
    rcases List.mem_map.1 h2 with ⟨c', _, hx⟩
    have h2nd := congrArg Prod.snd hx
    simp only at h2nd
    exact n (by omega)

theorem Board.length_allPositions (b : Board) : b.allPositions.length = b.rows * b.cols := by
  unfold Board.allPositions
  rw [List.length_flatMap]
  simp [List.map_map, Function.comp_def]

theorem Board.mem_neighborsList_inbounds {b : Board} {c r : Int} {q : Pos}
    (h : q ∈ b.neighborsList c r) : b.is_inbounds q.1 q.2 = true :=
  (List.mem_filter.mp h).2

theorem Board.length_neighborsList_le (b : Board) (c r : Int) :
    (b.neighborsList c r).length ≤ 8 :=
  le_trans (List.length_filter_le _ _) (by simp [deltas])

theorem Board.neighborsList_congr {b b' : Board} (hc : b.cols = b'.cols)
    (hr : b.rows = b'.rows) (c r : Int) : b.neighborsList c r = b'.neighborsList c r := by
  simp [Board.neighborsList, Board.is_inbounds, hc, hr]

/-! ### Counting helpers -/

theorem countP_update_true {α : Type} (l : List α) (f g : α → Bool) (p : α)
    (hl : l.Nodup) (hp : p ∈ l) (hfp : f p = false) (hgp : g p = true)
    (hfg : ∀ q, q ≠ p → f q = g q) : l.countP g = l.countP f + 1 := by
  induction l with
  | nil => cases hp
  | cons a t ih =>
    rw [List.countP_cons, List.countP_cons]
    rcases List.mem_cons.mp hp with h | h
    · subst h
      have ht : t.countP f = t.countP g := by
        apply List.countP_congr
        intro q hq
        rw [hfg q (fun hqp => (List.nodup_cons.mp hl).1 (hqp ▸ hq))]
      rw [hfp, hgp, ht]
      simp
    · have hap : a ≠ p := fun hap => (List.nodup_cons.mp hl).1 (hap ▸ h)
      rw [ih (List.nodup_cons.mp hl).2 h, hfg a hap]
      omega

theorem countP_or_disj {α : Type} (l : List α) (f g : α → Bool)
    (h : ∀ x ∈ l, ¬(f x = true ∧ g x = true)) :
    l.countP (fun x => f x || g x) = l.countP f + l.countP g := by
  induction l with
  | nil => simp
  | cons a t ih =>
    simp only [List.countP_cons]
    rw [ih (fun x hx => h x (List.mem_cons_of_mem a hx))]
    have := h a (List.mem_cons_self a t)
    cases hfa : f a <;> cases hga : g a <;> simp [hfa, hga] at this ⊢ <;> omega

theorem countP_eq_one_of_nodup {α : Type} [DecidableEq α] (l : List α) (hl : l.Nodup)
    (t : α) (ht : t ∈ l) : l.countP (fun x => decide (x = t)) = 1 := by
  induction l with
  | nil => cases ht
  | cons hd tl ih =>
    rw [List.countP_cons]
    rcases List.mem_cons.mp ht with h | h
    · have hz : tl.countP (fun x => decide (x = t)) = 0 := by
        rw [List.countP_eq_zero]
        intro x hx
        simp only [decide_eq_true_eq]
        intro hxt
        exact (List.nodup_cons.mp hl).1 (by rw [← h, ← hxt]; exact hx)
      simp [hz, ← h]
    · have hat : hd ≠ t := fun hat => (List.nodup_cons.mp hl).1 (hat ▸ h)
      rw [ih (List.nodup_cons.mp hl).2 h]
      simp [hat]

theorem take_subset_of_perm {α : Type} {l l' : List α} (h : l'.Perm l) (n : Nat)
    {x : α} (hx : x ∈ l'.take n) : x ∈ l :=
  h.mem_iff.mp (List.mem_of_mem_take hx)


theorem countP_mem_of_nodup {α : Type} [DecidableEq α] (l : List α) (T : List α)
    (hl : l.Nodup) (hT : T.Nodup) (hsub : ∀ x ∈ T, x ∈ l) :
    l.countP (fun x => decide (x ∈ T)) = T.length := by
  induction T with
  | nil => simp
  | cons t T' ih =>
    have hstep : l.countP (fun x => decide (x ∈ t :: T')) =
        l.countP (fun x => decide (x = t) || decide (x ∈ T')) := by
      apply List.countP_congr
      intro q _
      simp [List.mem_cons]
    rw [hstep, countP_or_disj]
    · rw [countP_eq_one_of_nodup l hl t (hsub t (List.mem_cons_self t T')),
        ih (List.nodup_cons.mp hT).2 (fun x hx => hsub x (List.mem_cons_of_mem t hx))]
      simp [Nat.add_comm]
    · intro x _
      simp only [decide_eq_true_eq]
      rintro ⟨hxt, hxT⟩
      exact (List.nodup_cons.mp hT).1 (hxt ▸ hxT)
theorem countP_eq_length_of_mem_iff {α : Type} [DecidableEq α] (l T : List α)
    (f : α → Bool) (hf : ∀ x, f x = true ↔ x ∈ T)
    (hl : l.Nodup) (hT : T.Nodup) (hsub : ∀ x ∈ T, x ∈ l) :
    l.countP f = T.length := by
  have h1 : l.countP f = l.countP (fun x => decide (x ∈ T)) := by
    apply List.countP_congr
    intro q _
    simp [hf q]
  rw [h1]
  exact countP_mem_of_nodup l T hl hT hsub

/-! ### Frame lemmas for the elementary board updates -/

theorem Board.revealOne_mine (b : Board) (p q : Pos) :
    ((b.revealOne p).cells q).is_mine = (b.cells q).is_mine := by
  by_cases h : q = p
  · subst h; simp [Board.revealOne, updFn_same]
  · simp [Board.revealOne, updFn_ne _ _ _ h]

theorem Board.revealOne_flag (b : Board) (p q : Pos) :
    ((b.revealOne p).cells q).is_flagged = (b.cells q).is_flagged := by
  by_cases h : q = p
  · subst h; simp [Board.revealOne, updFn_same]
  · simp [Board.revealOne, updFn_ne _ _ _ h]

theorem Board.revealOne_adj (b : Board) (p q : Pos) :
    ((b.revealOne p).cells q).adjacent = (b.cells q).adjacent := by
  by_cases h : q = p
  · subst h; simp [Board.revealOne, updFn_same]
  · simp [Board.revealOne, updFn_ne _ _ _ h]

theorem Board.revealOne_rev_self (b : Board) (p : Pos) :
    ((b.revealOne p).cells p).is_revealed = true := by
  simp [Board.revealOne, updFn_same]

theorem Board.revealOne_rev_ne (b : Board) {p q : Pos} (h : q ≠ p) :
    ((b.revealOne p).cells q).is_revealed = (b.cells q).is_revealed := by
  simp [Board.revealOne, updFn_ne _ _ _ h]

theorem Board.revealOne_rev_mono (b : Board) (p : Pos) {q : Pos}
    (h : (b.cells q).is_revealed = true) :
    ((b.revealOne p).cells q).is_revealed = true := by
  by_cases hq : q = p
  · subst hq; exact b.revealOne_rev_self q
  · rw [b.revealOne_rev_ne hq]; exact h

/-- Revealing one in-bounds unrevealed cell lowers the unrevealed count by one. -/
theorem Board.unrevCount_revealOne {b : Board} {p : Pos}
    (hin : b.is_inbounds p.1 p.2 = true) (hun : (b.cells p).is_revealed = false) :
    b.unrevCount = (b.revealOne p).unrevCount + 1 := by
  exact countP_update_true b.allPositions
    (fun q => !((b.revealOne p).cells q).is_revealed)
    (fun q => !(b.cells q).is_revealed) p (b.allPositions_nodup)
    (Board.mem_allPositions.mpr hin)
    (by simp [b.revealOne_rev_self]) (by simp [hun])
    (fun q hq => by simp only [b.revealOne_rev_ne hq])

/-! ### Frame lemmas for the flood-fill loop -/

theorem Board.floodLoop_scalars (b : Board) (fuel : Nat) (stack : List Pos) :
    (b.floodLoop fuel stack).cols = b.cols ∧
    (b.floodLoop fuel stack).rows = b.rows ∧
    (b.floodLoop fuel stack).num_mines = b.num_mines ∧
    (b.floodLoop fuel stack).mines_placed = b.mines_placed ∧
    (b.floodLoop fuel stack).game_over = b.game_over ∧
    (b.floodLoop fuel stack).win = b.win := by
  induction fuel generalizing b stack with
  | zero => cases stack <;> simp [Board.floodLoop]
  | succ n ih =>
    cases stack with
    | nil => simp [Board.floodLoop]
    | cons p rest =>
      simp only [Board.floodLoop]
      split
      · exact ih b rest
      · split
        · exact ih (b.revealOne p) _
        · exact ih (b.revealOne p) rest

theorem Board.floodLoop_cell_frame (b : Board) (fuel : Nat) (stack : List Pos) (q : Pos) :
    (((b.floodLoop fuel stack).cells q).is_mine = (b.cells q).is_mine) ∧
    (((b.floodLoop fuel stack).cells q).is_flagged = (b.cells q).is_flagged) ∧
    (((b.floodLoop fuel stack).cells q).adjacent = (b.cells q).adjacent) := by
  induction fuel generalizing b stack with
  | zero => cases stack <;> simp [Board.floodLoop]
  | succ n ih =>
    cases stack with
    | nil => simp [Board.floodLoop]
    | cons p rest =>
      simp only [Board.floodLoop]
      split
      · exact ih b rest
      · split
        · obtain ⟨h1, h2, h3⟩ := ih (b.revealOne p) (((b.revealOne p).floodPushes p).reverse ++ rest)
          exact ⟨h1.trans (b.revealOne_mine p q), h2.trans (b.revealOne_flag p q),
            h3.trans (b.revealOne_adj p q)⟩
        · obtain ⟨h1, h2, h3⟩ := ih (b.revealOne p) rest
          exact ⟨h1.trans (b.revealOne_mine p q), h2.trans (b.revealOne_flag p q),
            h3.trans (b.revealOne_adj p q)⟩

theorem Board.floodLoop_rev_mono (b : Board) (fuel : Nat) (stack : List Pos) {q : Pos}
    (h : (b.cells q).is_revealed = true) :
    ((b.floodLoop fuel stack).cells q).is_revealed = true := by
  induction fuel generalizing b stack with
  | zero => cases stack <;> simpa [Board.floodLoop] using h
  | succ n ih =>
    cases stack with
    | nil => simpa [Board.floodLoop] using h
    | cons p rest =>
      simp only [Board.floodLoop]
      split
      · exact ih b rest h
      · split
        · exact ih (b.revealOne p) _ (b.revealOne_rev_mono p h)
        · exact ih (b.revealOne p) rest (b.revealOne_rev_mono p h)

/-- Every unflagged stack element ends up revealed, given sufficient fuel. -/
theorem Board.floodLoop_reveals {b : Board} {fuel : Nat} {stack : List Pos}
    (hfuel : 9 * b.unrevCount + stack.length ≤ fuel)
    (hin : ∀ q ∈ stack, b.is_inbounds q.1 q.2 = true) :
    ∀ q ∈ stack, (b.cells q).is_flagged = false →
      ((b.floodLoop fuel stack).cells q).is_revealed = true := by
  induction fuel generalizing b stack with
  | zero =>
    intro q hq _
    cases stack with
    | nil => cases hq
    | cons p rest => simp at hfuel
  | succ n ih =>
    intro q hq hflag
    cases stack with
    | nil => cases hq
    | cons p rest =>
      simp only [Board.floodLoop]
      by_cases hskip : ((b.cells p).is_revealed || (b.cells p).is_flagged) = true
      · rw [if_pos hskip]
        rcases List.mem_cons.mp hq with hqp | hqr
        · subst hqp
          have hrev : (b.cells q).is_revealed = true := by
            rcases Bool.or_eq_true_iff.mp hskip with h | h
            · exact h
            · exact absurd h (by simp [hflag])
          exact b.floodLoop_rev_mono n rest hrev
        · have hfuel' : 9 * b.unrevCount + rest.length ≤ n := by
            simp only [List.length_cons] at hfuel; omega
          exact ih hfuel' (fun r hr => hin r (List.mem_cons_of_mem p hr)) q hqr hflag
      · rw [if_neg hskip]
        have hpin : b.is_inbounds p.1 p.2 = true := hin p (List.mem_cons_self p rest)
        have hskip' : ((b.cells p).is_revealed || (b.cells p).is_flagged) = false := by
          simpa using hskip
        have hprev : (b.cells p).is_revealed = false :=
          (Bool.or_eq_false_iff.mp hskip').1
        have hcnt := Board.unrevCount_revealOne hpin hprev
        have hrevq : (b.cells q).is_flagged = false → q = p ∨ q ∈ rest := fun _ =>
          List.mem_cons.mp hq
        have hgoal : ∀ stack' : List Pos,
            9 * (b.revealOne p).unrevCount + stack'.length ≤ n →
            (∀ r ∈ stack', (b.revealOne p).is_inbounds r.1 r.2 = true) →
            (q = p ∨ q ∈ stack') →
            (((b.revealOne p).floodLoop n stack').cells q).is_revealed = true := by
          intro stack' hf' hin' hq'
          rcases hq' with hqp | hqs
          · subst hqp
            exact (b.revealOne q).floodLoop_rev_mono n stack' (b.revealOne_rev_self q)
          · exact ih hf' hin' q hqs (by rw [b.revealOne_flag p q]; exact hflag)
        split
        · refine hgoal _ ?_ ?_ ?_
          · have hlen : ((b.revealOne p).floodPushes p).length ≤ 8 :=
              le_trans (List.length_filter_le _ _) ((b.revealOne p).length_neighborsList_le p.1 p.2)
            simp only [List.length_append, List.length_reverse, List.length_cons] at hfuel ⊢
            omega
          · intro r hr
            rcases List.mem_append.mp hr with h | h
            · exact (b.revealOne p).mem_neighborsList_inbounds
                (List.mem_filter.mp (List.mem_reverse.mp h)).1
            · exact hin r (List.mem_cons_of_mem p h)
          · rcases List.mem_cons.mp hq with hqp | hqr
            · exact Or.inl hqp
            · exact Or.inr (List.mem_append.mpr (Or.inr hqr))
        · refine hgoal rest ?_ ?_ ?_
          · simp only [List.length_cons] at hfuel; omega
          · exact fun r hr => hin r (List.mem_cons_of_mem p hr)
          · exact List.mem_cons.mp hq

/-! ### Soundness of the flood fill: only `ZReach`-reachable cells get revealed -/

theorem Board.floodLoop_sound {b0 : Board} {s : Pos} :
    ∀ (fuel : Nat) (b : Board) (stack : List Pos),
      Board.FloodSound b0 s b → (∀ q ∈ stack, ZReach b0 s q) →
      Board.FloodSound b0 s (b.floodLoop fuel stack) := by
  intro fuel
  induction fuel with
  | zero =>
    intro b stack hS hZ
    cases stack <;> simpa [Board.floodLoop] using hS
  | succ n ih =>
    intro b stack hS hZ
    cases stack with
    | nil => simpa [Board.floodLoop] using hS
    | cons p rest =>
      simp only [Board.floodLoop]
      by_cases hskip : ((b.cells p).is_revealed || (b.cells p).is_flagged) = true
      · rw [if_pos hskip]
        exact ih b rest hS (fun q hq => hZ q (List.mem_cons_of_mem p hq))
      · rw [if_neg hskip]
        have hskip2 : ((b.cells p).is_revealed || (b.cells p).is_flagged) = false := by
          simpa using hskip
        obtain ⟨hrev, hflag⟩ := Bool.or_eq_false_iff.mp hskip2
        have hrev0 : (b0.cells p).is_revealed = false := by
          cases h0 : (b0.cells p).is_revealed
          · rfl
          · exact absurd (hS.rev_mono p h0) (by simp [hrev])
        have hflag0 : (b0.cells p).is_flagged = false := by
          rw [← hS.flag_eq p]; exact hflag
        have hS' : Board.FloodSound b0 s (b.revealOne p) := by
          refine ⟨hS.cols_eq, hS.rows_eq, ?_, ?_, ?_, ?_, ?_⟩
          · intro q; rw [b.revealOne_mine p q]; exact hS.mine_eq q
          · intro q; rw [b.revealOne_flag p q]; exact hS.flag_eq q
          · intro q; rw [b.revealOne_adj p q]; exact hS.adj_eq q
          · intro q hq; exact b.revealOne_rev_mono p (hS.rev_mono q hq)
          · intro q hq
            by_cases hqp : q = p
            · subst hqp
              exact Or.inr ⟨hrev0, hflag0, hZ q (List.mem_cons_self q rest)⟩
            · rw [b.revealOne_rev_ne hqp] at hq
              exact hS.rev_char q hq
        by_cases hadjp : (b.cells p).adjacent = 0
        · rw [if_pos hadjp]
          refine ih (b.revealOne p) _ hS' ?_
          intro q hq
          rcases List.mem_append.mp hq with h | h
          · have hmem : q ∈ b.neighborsList p.1 p.2 :=
              (List.mem_filter.mp (List.mem_reverse.mp h)).1
            have hmem0 : q ∈ b0.neighborsList p.1 p.2 := by
              rw [← Board.neighborsList_congr hS.cols_eq hS.rows_eq]
              exact hmem
            exact ZReach.step (hZ p (List.mem_cons_self p rest)) hrev0 hflag0
              (by rw [← hS.adj_eq p]; exact hadjp) hmem0
          · exact hZ q (List.mem_cons_of_mem p h)
        · rw [if_neg hadjp]
          exact ih (b.revealOne p) rest hS' (fun q hq => hZ q (List.mem_cons_of_mem p hq))

/-! ### Border property: neighbours of newly revealed zero cells end up
revealed, flagged, or still pending on the stack -/

theorem Board.floodLoop_border {b0 b : Board} {fuel : Nat} {stack : List Pos}
    (hfuel : 9 * b.unrevCount + stack.length ≤ fuel)
    (hin : ∀ q ∈ stack, b.is_inbounds q.1 q.2 = true)
    (hB : Board.BorderOK b0 b stack) :
    Board.BorderOK b0 (b.floodLoop fuel stack) [] := by
  induction fuel generalizing b stack with
  | zero =>
    cases stack with
    | nil => simpa [Board.floodLoop] using hB
    | cons p rest => simp at hfuel
  | succ n ih =>
    cases stack with
    | nil => simpa [Board.floodLoop] using hB
    | cons p rest =>
      simp only [Board.floodLoop]
      by_cases hskip : ((b.cells p).is_revealed || (b.cells p).is_flagged) = true
      · rw [if_pos hskip]
        refine ih ?_ (fun q hq => hin q (List.mem_cons_of_mem p hq)) ?_
        · simp only [List.length_cons] at hfuel; omega
        · intro q hrev hnew hadj p' hp'
          rcases hB q hrev hnew hadj p' hp' with h | h | h
          · exact Or.inl h
          · exact Or.inr (Or.inl h)
          · rcases List.mem_cons.mp h with hpp | hr
            · subst hpp
              rcases Bool.or_eq_true_iff.mp hskip with h1 | h1
              · exact Or.inl h1
              · exact Or.inr (Or.inl h1)
            · exact Or.inr (Or.inr hr)
      · rw [if_neg hskip]
        have hskip' : ((b.cells p).is_revealed || (b.cells p).is_flagged) = false := by
          simpa using hskip
        obtain ⟨hrev, hflag⟩ := Bool.or_eq_false_iff.mp hskip'
        have hpin : b.is_inbounds p.1 p.2 = true := hin p (List.mem_cons_self p rest)
        have hcntstep := Board.unrevCount_revealOne hpin hrev
        by_cases hadjp : (b.cells p).adjacent = 0
        · rw [if_pos hadjp]
          refine ih ?_ ?_ ?_
          · have hlen : ((b.revealOne p).floodPushes p).length ≤ 8 :=
              le_trans (List.length_filter_le _ _)
                ((b.revealOne p).length_neighborsList_le p.1 p.2)
            simp only [List.length_append, List.length_reverse, List.length_cons] at hfuel ⊢
            omega
          · intro r hr
            rcases List.mem_append.mp hr with h | h
            · exact (b.revealOne p).mem_neighborsList_inbounds
                (List.mem_filter.mp (List.mem_reverse.mp h)).1
            · exact hin r (List.mem_cons_of_mem p h)
          · intro q hrevq hnew hadjq p' hp'
            by_cases hqp : q = p
            · subst hqp
              cases hrevp' : ((b.revealOne q).cells p').is_revealed
              · cases hflagp' : ((b.revealOne q).cells p').is_flagged
                · refine Or.inr (Or.inr (List.mem_append.mpr (Or.inl ?_)))
                  rw [List.mem_reverse]
                  exact List.mem_filter.mpr ⟨hp', by simp [hrevp', hflagp']⟩
                · exact Or.inr (Or.inl rfl)
              · exact Or.inl rfl
            · have hrevb : (b.cells q).is_revealed = true := by
                rw [← b.revealOne_rev_ne hqp]; exact hrevq
              have hadjb : (b.cells q).adjacent = 0 := by
                rw [← b.revealOne_adj p q]; exact hadjq
              rcases hB q hrevb hnew hadjb p' hp' with h | h | h
              · exact Or.inl (b.revealOne_rev_mono p h)
              · exact Or.inr (Or.inl (by rw [b.revealOne_flag p p']; exact h))
              · rcases List.mem_cons.mp h with hpp | hr
                · subst hpp
                  exact Or.inl (b.revealOne_rev_self p')
                · exact Or.inr (Or.inr (List.mem_append.mpr (Or.inr hr)))
        · rw [if_neg hadjp]
          refine ih ?_ (fun r hr => hin r (List.mem_cons_of_mem p hr)) ?_
          · simp only [List.length_cons] at hfuel; omega
          · intro q hrevq hnew hadjq p' hp'
            by_cases hqp : q = p
            · subst hqp
              rw [b.revealOne_adj q q] at hadjq
              exact absurd hadjq hadjp
            · have hrevb : (b.cells q).is_revealed = true := by
                rw [← b.revealOne_rev_ne hqp]; exact hrevq
              have hadjb : (b.cells q).adjacent = 0 := by
                rw [← b.revealOne_adj p q]; exact hadjq
              rcases hB q hrevb hnew hadjb p' hp' with h | h | h
              · exact Or.inl (b.revealOne_rev_mono p h)
              · exact Or.inr (Or.inl (by rw [b.revealOne_flag p p']; exact h))
              · rcases List.mem_cons.mp h with hpp | hr
                · subst hpp
                  exact Or.inl (b.revealOne_rev_self p')
                · exact Or.inr (Or.inr hr)

/-! ### The flood fill counts every cell it reveals, and reveals no mine -/

theorem Board.floodLoop_count :
    ∀ (fuel : Nat) (b : Board) (stack : List Pos),
      (∀ q ∈ stack, b.is_inbounds q.1 q.2 = true) →
      (∀ q ∈ stack, (b.cells q).is_mine = false) →
      b.AdjOK → b.CountOK →
      (b.floodLoop fuel stack).CountOK ∧
      ∀ p : Pos, (b.cells p).is_mine = true →
        ((b.floodLoop fuel stack).cells p).is_revealed = (b.cells p).is_revealed := by
  intro fuel
  induction fuel with
  | zero =>
    intro b stack _ _ _ hcnt
    cases stack <;> simp only [Board.floodLoop] <;> exact ⟨hcnt, fun _ _ => trivial⟩
  | succ n ih =>
    intro b stack hin hnm hadj hcnt
    cases stack with
    | nil => simp only [Board.floodLoop]; exact ⟨hcnt, fun _ _ => trivial⟩
    | cons p rest =>
      simp only [Board.floodLoop]
      by_cases hskip : ((b.cells p).is_revealed || (b.cells p).is_flagged) = true
      · rw [if_pos hskip]
        exact ih b rest (fun q hq => hin q (List.mem_cons_of_mem p hq))
          (fun q hq => hnm q (List.mem_cons_of_mem p hq)) hadj hcnt
      · rw [if_neg hskip]
        have hskip2 : ((b.cells p).is_revealed || (b.cells p).is_flagged) = false := by
          simpa using hskip
        obtain ⟨hrev, hflag⟩ := Bool.or_eq_false_iff.mp hskip2
        have hpin : b.is_inbounds p.1 p.2 = true := hin p (List.mem_cons_self p rest)
        have hpnm : (b.cells p).is_mine = false := hnm p (List.mem_cons_self p rest)
        have hcnt' : (b.revealOne p).CountOK := by
          have hstep : b.allPositions.countP
                (fun q => ((b.revealOne p).cells q).is_revealed &&
                  !((b.revealOne p).cells q).is_mine) =
              b.allPositions.countP
                (fun q => (b.cells q).is_revealed && !(b.cells q).is_mine) + 1 := by
            refine countP_update_true b.allPositions _ _ p b.allPositions_nodup
              (Board.mem_allPositions.mpr hpin) ?_ ?_ ?_
            · simp [hrev]
            · simp [b.revealOne_rev_self, b.revealOne_mine, hpnm]
            · intro q hq
              simp only [b.revealOne_rev_ne hq, b.revealOne_mine p q]
          show b.revealed_count + 1 = b.allPositions.countP
            (fun q => ((b.revealOne p).cells q).is_revealed && !((b.revealOne p).cells q).is_mine)
          rw [hstep, hcnt]
        have hadj' : (b.revealOne p).AdjOK := by
          intro q hqin hqnm
          rw [b.revealOne_adj p q,
            hadj q hqin (by rw [← b.revealOne_mine p q]; exact hqnm)]
          apply List.countP_congr
          intro r _
          rw [b.revealOne_mine p r]
        have hrestin : ∀ q ∈ rest, (b.revealOne p).is_inbounds q.1 q.2 = true :=
          fun q hq => hin q (List.mem_cons_of_mem p hq)
        have hrestnm : ∀ q ∈ rest, ((b.revealOne p).cells q).is_mine = false :=
          fun q hq => by rw [b.revealOne_mine p q]; exact hnm q (List.mem_cons_of_mem p hq)
        by_cases hadjp : (b.cells p).adjacent = 0
        · rw [if_pos hadjp]
          have hmines0 : ∀ r ∈ b.neighborsList p.1 p.2, (b.cells r).is_mine = false := by
            have hz : (b.neighborsList p.1 p.2).countP (fun q => (b.cells q).is_mine) = 0 := by
              rw [← hadj p hpin hpnm]; exact hadjp
            intro r hr
            have := List.countP_eq_zero.mp hz r hr
            simpa using this
          have hin' : ∀ q ∈ ((b.revealOne p).floodPushes p).reverse ++ rest,
              (b.revealOne p).is_inbounds q.1 q.2 = true := by
            intro q hq
            rcases List.mem_append.mp hq with h | h
            · exact (b.revealOne p).mem_neighborsList_inbounds
                (List.mem_filter.mp (List.mem_reverse.mp h)).1
            · exact hrestin q h
          have hnm' : ∀ q ∈ ((b.revealOne p).floodPushes p).reverse ++ rest,
              ((b.revealOne p).cells q).is_mine = false := by
            intro q hq
            rcases List.mem_append.mp hq with h | h
            · rw [b.revealOne_mine p q]
              exact hmines0 q (List.mem_filter.mp (List.mem_reverse.mp h)).1
            · exact hrestnm q h
          obtain ⟨ihc, ihm⟩ := ih (b.revealOne p) _ hin' hnm' hadj' hcnt'
          refine ⟨ihc, ?_⟩
          intro p' hp'
          have hne : p' ≠ p := by
            intro h
            rw [h, hpnm] at hp'
            cases hp'
          rw [ihm p' (by rw [b.revealOne_mine p p']; exact hp'), b.revealOne_rev_ne hne]
        · rw [if_neg hadjp]
          obtain ⟨ihc, ihm⟩ := ih (b.revealOne p) rest hrestin hrestnm hadj' hcnt'
          refine ⟨ihc, ?_⟩
          intro p' hp'
          have hne : p' ≠ p := by
            intro h
            rw [h, hpnm] at hp'
            cases hp'
          rw [ihm p' (by rw [b.revealOne_mine p p']; exact hp'), b.revealOne_rev_ne hne]

/-! ### Exact characterization of the flood fill -/

theorem Board.unrevCount_le (b : Board) : b.unrevCount ≤ b.rows * b.cols := by
  calc b.unrevCount ≤ b.allPositions.length := List.countP_le_length _
    _ = b.rows * b.cols := b.length_allPositions

/-- The fuel `reveal` supplies dominates the loop measure for any start. -/
theorem Board.fuel_ok (b : Board) (s : Pos) :
    9 * b.unrevCount + [s].length ≤ 9 * (b.cols * b.rows) + 1 := by
  have h := b.unrevCount_le
  simp only [List.length_cons, List.length_nil]
  have : b.rows * b.cols = b.cols * b.rows := Nat.mul_comm _ _
  omega

/-- A cell ends up revealed by the flood fill started at the in-bounds,
unrevealed, unflagged cell `s` exactly when it was already revealed or is
`ZReach`-reachable from `s` and itself unrevealed and unflagged. -/
theorem Board.flood_exact {b : Board} {s : Pos}
    (hin : b.is_inbounds s.1 s.2 = true)
    (hrev : (b.cells s).is_revealed = false) (hflag : (b.cells s).is_flagged = false) :
    ∀ p : Pos,
      (((b.floodLoop (9 * (b.cols * b.rows) + 1) [s]).cells p).is_revealed = true ↔
        ((b.cells p).is_revealed = true ∨
          ((b.cells p).is_revealed = false ∧ (b.cells p).is_flagged = false ∧ ZReach b s p))) := by
  have hfuel := b.fuel_ok s
  have hinl : ∀ q ∈ [s], b.is_inbounds q.1 q.2 = true := by
    intro q hq
    rcases List.mem_singleton.mp hq with rfl
    exact hin
  have hZl : ∀ q ∈ [s], ZReach b s q := by
    intro q hq
    rcases List.mem_singleton.mp hq with rfl
    exact ZReach.refl
  have hSound : Board.FloodSound b s (b.floodLoop (9 * (b.cols * b.rows) + 1) [s]) :=
    Board.floodLoop_sound _ b [s]
      ⟨rfl, rfl, fun _ => rfl, fun _ => rfl, fun _ => rfl, fun _ h => h, fun _ h => Or.inl h⟩
      hZl
  have hB0 : Board.BorderOK b b [s] := by
    intro q hq hq' _ _ _
    rw [hq] at hq'
    cases hq'
  have hBorder := Board.floodLoop_border hfuel hinl hB0
  have hscal := b.floodLoop_scalars (9 * (b.cols * b.rows) + 1) [s]
  have hcomplete : ∀ p : Pos, ZReach b s p → (b.cells p).is_revealed = false →
      (b.cells p).is_flagged = false →
      (((b.floodLoop (9 * (b.cols * b.rows) + 1) [s]).cells p).is_revealed = true) := by
    intro p hz
    induction hz with
    | refl =>
      intro _ h2
      exact Board.floodLoop_reveals hfuel hinl s (List.mem_singleton.mpr rfl) h2
    | @step p0 q hzp hrevp hflagp hadjp hmem ihz =>
      intro h1 h2
      have hrevfin := ihz hrevp hflagp
      have hadjfin :
          ((b.floodLoop (9 * (b.cols * b.rows) + 1) [s]).cells p0).adjacent = 0 := by
        rw [(b.floodLoop_cell_frame _ _ p0).2.2]
        exact hadjp
      have hmemfin :
          q ∈ (b.floodLoop (9 * (b.cols * b.rows) + 1) [s]).neighborsList p0.1 p0.2 := by
        rw [Board.neighborsList_congr hscal.1 hscal.2.1]
        exact hmem
      rcases hBorder p0 hrevfin hrevp hadjfin q hmemfin with h | h | h
      · exact h
      · rw [(b.floodLoop_cell_frame _ _ q).2.1, h2] at h
        cases h
      · cases h
  intro p
  constructor
  · intro hp
    rcases hSound.rev_char p hp with h | h
    · exact Or.inl h
    · exact Or.inr h
  · intro hp
    rcases hp with h | ⟨h1, h2, h3⟩
    · exact b.floodLoop_rev_mono _ _ h
    · exact hcomplete p h3 h1 h2

/-! ### Characterization of `check_win`, `reveal_all_mines`, `place_mines`,
`toggle_flag` -/

theorem Board.check_win_game_over (b : Board) : (b.check_win).game_over = b.game_over := by
  unfold Board.check_win
  split <;> rfl

theorem Board.check_win_count (b : Board) :
    (b.check_win).revealed_count = b.revealed_count := by
  unfold Board.check_win
  split <;> rfl

theorem Board.check_win_scalars (b : Board) :
    (b.check_win).cols = b.cols ∧ (b.check_win).rows = b.rows ∧
    (b.check_win).num_mines = b.num_mines ∧
    (b.check_win).mines_placed = b.mines_placed := by
  unfold Board.check_win
  split <;> exact ⟨rfl, rfl, rfl, rfl⟩

theorem Board.check_win_win (b : Board) :
    ((b.check_win).win = true) ↔ (b.win = true ∨ Board.CWCond b) := by
  unfold Board.check_win Board.CWCond
  split
  · next hc => exact ⟨fun _ => Or.inr hc, fun _ => rfl⟩
  · next hc =>
    constructor
    · exact fun h => Or.inl h
    · intro h
      rcases h with h | h
      · exact h
      · exact absurd h hc

theorem Board.check_win_mine (b : Board) (p : Pos) :
    ((b.check_win).cells p).is_mine = (b.cells p).is_mine := by
  unfold Board.check_win
  split
  · simp only
    split <;> rfl
  · rfl

theorem Board.check_win_flag (b : Board) (p : Pos) :
    ((b.check_win).cells p).is_flagged = (b.cells p).is_flagged := by
  unfold Board.check_win
  split
  · simp only
    split <;> rfl
  · rfl

theorem Board.check_win_adj (b : Board) (p : Pos) :
    ((b.check_win).cells p).adjacent = (b.cells p).adjacent := by
  unfold Board.check_win
  split
  · simp only
    split <;> rfl
  · rfl

theorem Board.check_win_rev_char (b : Board) (p : Pos) :
    (((b.check_win).cells p).is_revealed = true) ↔
      ((b.cells p).is_revealed = true ∨
        (Board.CWCond b ∧ b.is_inbounds p.1 p.2 = true ∧ (b.cells p).is_mine = false)) := by
  unfold Board.check_win Board.CWCond
  split
  · next hc =>
    simp only
    split
    · next hcell =>
      simp only [Bool.and_eq_true, Bool.not_eq_true'] at hcell
      exact ⟨fun _ => Or.inr ⟨hc, hcell.1.1, hcell.2⟩, fun _ => rfl⟩
    · next hcell =>
      constructor
      · exact fun h => Or.inl h
      · intro h
        rcases h with h | ⟨_, hinb, hmine⟩
        · exact h
        · cases hrevp : (b.cells p).is_revealed
          · exact absurd (by simp [hinb, hmine, hrevp]) hcell
          · rfl
  · next hc =>
    constructor
    · exact fun h => Or.inl h
    · intro h
      rcases h with h | ⟨hcond, _, _⟩
      · exact h
      · exact absurd hcond hc

theorem Board.reveal_all_mines_scalars (b : Board) :
    (b.reveal_all_mines).cols = b.cols ∧ (b.reveal_all_mines).rows = b.rows ∧
    (b.reveal_all_mines).num_mines = b.num_mines ∧
    (b.reveal_all_mines).mines_placed = b.mines_placed ∧
    (b.reveal_all_mines).revealed_count = b.revealed_count ∧
    (b.reveal_all_mines).game_over = b.game_over ∧
    (b.reveal_all_mines).win = b.win :=
  ⟨rfl, rfl, rfl, rfl, rfl, rfl, rfl⟩

theorem Board.reveal_all_mines_mine (b : Board) (p : Pos) :
    ((b.reveal_all_mines).cells p).is_mine = (b.cells p).is_mine := by
  unfold Board.reveal_all_mines
  simp only
  split <;> rfl

theorem Board.reveal_all_mines_flag (b : Board) (p : Pos) :
    ((b.reveal_all_mines).cells p).is_flagged = (b.cells p).is_flagged := by
  unfold Board.reveal_all_mines
  simp only
  split <;> rfl

theorem Board.reveal_all_mines_adj (b : Board) (p : Pos) :
    ((b.reveal_all_mines).cells p).adjacent = (b.cells p).adjacent := by
  unfold Board.reveal_all_mines
  simp only
  split <;> rfl

theorem Board.reveal_all_mines_rev (b : Board) (p : Pos) :
    ((b.reveal_all_mines).cells p).is_revealed =
      ((b.cells p).is_revealed || (b.is_inbounds p.1 p.2 && (b.cells p).is_mine)) := by
  unfold Board.reveal_all_mines
  simp only
  split
  · next h => simp [h]
  · next h =>
    have h' : (b.is_inbounds p.1 p.2 && (b.cells p).is_mine) = false := by
      simpa using h
    simp [h']

theorem Board.place_mines_scalars (b : Board) (shuf : List Pos → List Pos)
    (sc sr : Int) :
    (b.place_mines shuf sc sr).cols = b.cols ∧
    (b.place_mines shuf sc sr).rows = b.rows ∧
    (b.place_mines shuf sc sr).num_mines = b.num_mines ∧
    (b.place_mines shuf sc sr).revealed_count = b.revealed_count ∧
    (b.place_mines shuf sc sr).game_over = b.game_over ∧
    (b.place_mines shuf sc sr).win = b.win ∧
    (b.place_mines shuf sc sr).mines_placed = true :=
  ⟨rfl, rfl, rfl, rfl, rfl, rfl, rfl⟩

theorem Board.cellsAfterMines_mine (b : Board) (shuf : List Pos → List Pos)
    (sc sr : Int) (p : Pos) :
    (b.cellsAfterMines shuf sc sr p).is_mine =
      (decide (p ∈ b.mineList shuf sc sr) || (b.cells p).is_mine) := by
  by_cases h : p ∈ b.mineList shuf sc sr <;> simp [Board.cellsAfterMines, h]

theorem Board.cellsAfterMines_rev (b : Board) (shuf : List Pos → List Pos)
    (sc sr : Int) (p : Pos) :
    (b.cellsAfterMines shuf sc sr p).is_revealed = (b.cells p).is_revealed := by
  by_cases h : p ∈ b.mineList shuf sc sr <;> simp [Board.cellsAfterMines, h]

theorem Board.cellsAfterMines_flag (b : Board) (shuf : List Pos → List Pos)
    (sc sr : Int) (p : Pos) :
    (b.cellsAfterMines shuf sc sr p).is_flagged = (b.cells p).is_flagged := by
  by_cases h : p ∈ b.mineList shuf sc sr <;> simp [Board.cellsAfterMines, h]

theorem Board.place_mines_mine (b : Board) (shuf : List Pos → List Pos)
    (sc sr : Int) (p : Pos) :
    ((b.place_mines shuf sc sr).cells p).is_mine =
      (b.cellsAfterMines shuf sc sr p).is_mine := by
  unfold Board.place_mines
  simp only
  split <;> rfl

theorem Board.place_mines_rev (b : Board) (shuf : List Pos → List Pos)
    (sc sr : Int) (p : Pos) :
    ((b.place_mines shuf sc sr).cells p).is_revealed = (b.cells p).is_revealed := by
  unfold Board.place_mines
  simp only
  split
  · exact b.cellsAfterMines_rev shuf sc sr p
  · exact b.cellsAfterMines_rev shuf sc sr p

theorem Board.place_mines_flag (b : Board) (shuf : List Pos → List Pos)
    (sc sr : Int) (p : Pos) :
    ((b.place_mines shuf sc sr).cells p).is_flagged = (b.cells p).is_flagged := by
  unfold Board.place_mines
  simp only
  split
  · exact b.cellsAfterMines_flag shuf sc sr p
  · exact b.cellsAfterMines_flag shuf sc sr p

/-- After `place_mines`, every in-bounds non-mine cell's `adjacent` field is
the exact count of its mine neighbours. -/
theorem Board.place_mines_adjOK (b : Board) (shuf : List Pos → List Pos) (sc sr : Int) :
    (b.place_mines shuf sc sr).AdjOK := by
  intro p hin hnm
  have hnm1 : (b.cellsAfterMines shuf sc sr p).is_mine = false := by
    rw [← b.place_mines_mine shuf sc sr p]
    exact hnm
  have hinb : b.is_inbounds p.1 p.2 = true := hin
  have hcond : (b.is_inbounds p.1 p.2 && !(b.cellsAfterMines shuf sc sr p).is_mine) = true := by
    simp [hinb, hnm1]
  have hcells :
      (b.place_mines shuf sc sr).cells p =
        { b.cellsAfterMines shuf sc sr p with
          adjacent := (b.neighborsList p.1 p.2).countP
            (fun q => (b.cellsAfterMines shuf sc sr q).is_mine) } := by
    unfold Board.place_mines
    simp only
    rw [if_pos hcond]
  rw [hcells]
  apply List.countP_congr
  intro q _
  rw [b.place_mines_mine shuf sc sr q]

/-! ### Case lemmas for the public operations -/

theorem Board.place_mines_placed (b : Board) (shuf : List Pos → List Pos) (sc sr : Int) :
    (b.place_mines shuf sc sr).mines_placed = true := rfl

theorem Board.place_mines_inbounds (b : Board) (shuf : List Pos → List Pos)
    (sc sr c r : Int) :
    (b.place_mines shuf sc sr).is_inbounds c r = b.is_inbounds c r := rfl

theorem Board.reveal_oob {b : Board} (shuf : List Pos → List Pos) {col row : Int}
    (hin : b.is_inbounds col row = false) : b.reveal shuf col row = b := by
  unfold Board.reveal
  rw [if_pos hin]

theorem Board.reveal_guarded {b : Board} (shuf : List Pos → List Pos) {col row : Int}
    (hin : b.is_inbounds col row = true) (hp : b.mines_placed = true)
    (hg : ((b.cells (col, row)).is_revealed || (b.cells (col, row)).is_flagged) = true) :
    b.reveal shuf col row = b := by
  simp [Board.reveal, hin, hp, hg]

theorem Board.reveal_mine_branch {b : Board} (shuf : List Pos → List Pos) {col row : Int}
    (hin : b.is_inbounds col row = true) (hp : b.mines_placed = true)
    (hr : (b.cells (col, row)).is_revealed = false)
    (hf : (b.cells (col, row)).is_flagged = false)
    (hm : (b.cells (col, row)).is_mine = true) :
    b.reveal shuf col row = b.loseAt (col, row) := by
  simp [Board.reveal, hin, hp, hr, hf, hm]

theorem Board.reveal_flood_branch {b : Board} (shuf : List Pos → List Pos) {col row : Int}
    (hin : b.is_inbounds col row = true) (hp : b.mines_placed = true)
    (hr : (b.cells (col, row)).is_revealed = false)
    (hf : (b.cells (col, row)).is_flagged = false)
    (hm : (b.cells (col, row)).is_mine = false) :
    b.reveal shuf col row =
      (b.floodLoop (9 * (b.cols * b.rows) + 1) [(col, row)]).check_win := by
  simp [Board.reveal, hin, hp, hr, hf, hm]

theorem Board.reveal_unplaced {b : Board} (shuf : List Pos → List Pos) {col row : Int}
    (hin : b.is_inbounds col row = true) (hp : b.mines_placed = false) :
    b.reveal shuf col row = (b.place_mines shuf col row).reveal shuf col row := by
  unfold Board.reveal
  simp [hin, hp, Board.place_mines_placed, Board.place_mines_inbounds]

theorem Board.toggle_flag_oob {b : Board} {col row : Int}
    (hin : b.is_inbounds col row = false) : b.toggle_flag col row = b := by
  unfold Board.toggle_flag
  rw [if_pos hin]

theorem Board.toggle_flag_revealed {b : Board} {col row : Int}
    (hin : b.is_inbounds col row = true)
    (hrev : (b.cells (col, row)).is_revealed = true) : b.toggle_flag col row = b := by
  unfold Board.toggle_flag
  rw [if_neg (by simp [hin]), if_pos hrev]

theorem Board.toggle_flag_eq {b : Board} {col row : Int}
    (hin : b.is_inbounds col row = true)
    (hrev : (b.cells (col, row)).is_revealed = false) :
    b.toggle_flag col row =
      { b with
        cells := updFn b.cells (col, row)
          { b.cells (col, row) with is_flagged := !(b.cells (col, row)).is_flagged } } := by
  unfold Board.toggle_flag
  rw [if_neg (by simp [hin]), if_neg (by simp [hrev])]

theorem Board.hint_reveal_guard {b : Board} (shuf : List Pos → List Pos)
    (pick : List Pos → Pos)
    (h : (!b.mines_placed || b.game_over || b.win) = true) :
    b.hint_reveal shuf pick = b := by
  unfold Board.hint_reveal
  rw [if_pos h]

theorem Board.hint_reveal_empty {b : Board} (shuf : List Pos → List Pos)
    (pick : List Pos → Pos) (h2 : b.safeUnrevealed = []) :
    b.hint_reveal shuf pick = b := by
  unfold Board.hint_reveal
  by_cases h : (!b.mines_placed || b.game_over || b.win) = true
  · rw [if_pos h]
  · rw [if_neg h, if_pos h2]

theorem Board.hint_reveal_act {b : Board} (shuf : List Pos → List Pos)
    (pick : List Pos → Pos)
    (h1 : (!b.mines_placed || b.game_over || b.win) = false)
    (h2 : ¬(b.safeUnrevealed = [])) :
    b.hint_reveal shuf pick =
      b.reveal shuf (pick b.safeUnrevealed).1 (pick b.safeUnrevealed).2 := by
  unfold Board.hint_reveal
  rw [if_neg (by simp [h1]), if_neg h2]

/-! ### The reachable-state invariant -/

theorem Board.is_inbounds_congr {b b' : Board} (hc : b.cols = b'.cols)
    (hr : b.rows = b'.rows) (c r : Int) : b.is_inbounds c r = b'.is_inbounds c r := by
  simp [Board.is_inbounds, hc, hr]

/-- Adjacency correctness transfers along maps that keep the grid size, the
mines and the `adjacent` fields. -/
theorem Board.AdjOK_transfer {b b' : Board} (h : b.AdjOK)
    (hc : b'.cols = b.cols) (hr : b'.rows = b.rows)
    (hm : ∀ p : Pos, (b'.cells p).is_mine = (b.cells p).is_mine)
    (ha : ∀ p : Pos, (b'.cells p).adjacent = (b.cells p).adjacent) : b'.AdjOK := by
  intro p hin hnm
  have hin' : b.is_inbounds p.1 p.2 = true := by
    rw [Board.is_inbounds_congr hc hr] at hin
    exact hin
  rw [ha p, h p hin' (by rw [← hm p]; exact hnm),
    ← Board.neighborsList_congr hc hr]
  apply List.countP_congr
  intro q _
  rw [hm q]

theorem Board.check_win_not_fired {b : Board} (h : ¬Board.CWCond b) :
    b.check_win = b := by
  unfold Board.CWCond at h
  unfold Board.check_win
  rw [if_neg h]

/-- The flood loop started from a singleton stack is sound relative to its
own start state. -/
theorem Board.flood_from_start (b : Board) (s : Pos) (fuel : Nat) :
    Board.FloodSound b s (b.floodLoop fuel [s]) := by
  refine Board.floodLoop_sound fuel b [s]
    ⟨rfl, rfl, fun _ => rfl, fun _ => rfl, fun _ => rfl, fun _ h => h, fun _ h => Or.inl h⟩ ?_
  intro q hq
  rcases List.mem_singleton.mp hq with rfl
  exact ZReach.refl

theorem Board.inv_new (cols rows mines : Nat) : (Board.new cols rows mines).Inv := by
  refine ⟨?_, ?_, ?_, ?_⟩
  · intro _
    exact ⟨fun p => ⟨rfl, rfl, rfl⟩, rfl, rfl, rfl⟩
  · intro p _ _
    have hz : List.countP (fun q => ((Board.new cols rows mines).cells q).is_mine)
        ((Board.new cols rows mines).neighborsList p.1 p.2) = 0 := by
      rw [List.countP_eq_zero]
      intro q _
      simp [Board.new, CellState.init]
    rw [hz]
    rfl
  · intro _
    have hz : List.countP
        (fun q => ((Board.new cols rows mines).cells q).is_revealed &&
          !((Board.new cols rows mines).cells q).is_mine)
        (Board.new cols rows mines).allPositions = 0 := by
      rw [List.countP_eq_zero]
      intro q _
      simp [Board.new, CellState.init]
    show (Board.new cols rows mines).revealed_count = _
    rw [hz]
    rfl
  · intro _ _ p hcontra
    obtain ⟨h, _⟩ := hcontra
    have h' : CellState.init.is_revealed = true := h
    simp [CellState.init] at h'

theorem Board.inv_place {b : Board} (shuf : List Pos → List Pos) (sc sr : Int)
    (hI : b.Inv) (hp : b.mines_placed = false) : (b.place_mines shuf sc sr).Inv := by
  obtain ⟨h1, _, _, _⟩ := hI
  obtain ⟨hcells, hcount, hgo, hwin⟩ := h1 hp
  refine ⟨?_, b.place_mines_adjOK shuf sc sr, ?_, ?_⟩
  · intro hcontra
    rw [b.place_mines_placed shuf sc sr] at hcontra
    cases hcontra
  · intro _
    show b.revealed_count = _
    rw [hcount]
    symm
    rw [List.countP_eq_zero]
    intro q _
    simp [b.place_mines_rev shuf sc sr q, (hcells q).2.1]
  · intro _ _ p hcontra
    obtain ⟨hrev', _⟩ := hcontra
    rw [b.place_mines_rev shuf sc sr p, (hcells p).2.1] at hrev'
    cases hrev'

theorem Board.withCells_cells (b : Board) (f : Pos → CellState) (p : Pos) :
    ({ b with cells := f } : Board).cells p = f p := rfl

theorem Board.inv_toggle {b : Board} (col row : Int) (hI : b.Inv) :
    (b.toggle_flag col row).Inv := by
  by_cases hin : b.is_inbounds col row = true
  · by_cases hrevt : (b.cells (col, row)).is_revealed = true
    · rw [Board.toggle_flag_revealed hin hrevt]
      exact hI
    · have hrevt' : (b.cells (col, row)).is_revealed = false := by simpa using hrevt
      rw [Board.toggle_flag_eq hin hrevt']
      obtain ⟨h1, h2, h3, h4⟩ := hI
      have hne : ∀ p : Pos, p ≠ (col, row) →
          updFn b.cells (col, row)
            { b.cells (col, row) with is_flagged := !(b.cells (col, row)).is_flagged } p =
            b.cells p := fun p hp => updFn_ne _ _ _ hp
      have hself :
          updFn b.cells (col, row)
            { b.cells (col, row) with is_flagged := !(b.cells (col, row)).is_flagged }
            (col, row) =
            { b.cells (col, row) with is_flagged := !(b.cells (col, row)).is_flagged } :=
        updFn_same _ _ _
      have hmine : ∀ p : Pos,
          (updFn b.cells (col, row)
            { b.cells (col, row) with is_flagged := !(b.cells (col, row)).is_flagged }
              p).is_mine = (b.cells p).is_mine := by
        intro p
        by_cases hp : p = (col, row)
        · rw [hp, hself]
        · rw [hne p hp]
      have hrev : ∀ p : Pos,
          (updFn b.cells (col, row)
            { b.cells (col, row) with is_flagged := !(b.cells (col, row)).is_flagged }
              p).is_revealed = (b.cells p).is_revealed := by
        intro p
        by_cases hp : p = (col, row)
        · rw [hp, hself]
        · rw [hne p hp]
      have hadj : ∀ p : Pos,
          (updFn b.cells (col, row)
            { b.cells (col, row) with is_flagged := !(b.cells (col, row)).is_flagged }
              p).adjacent = (b.cells p).adjacent := by
        intro p
        by_cases hp : p = (col, row)
        · rw [hp, hself]
        · rw [hne p hp]
      refine ⟨?_, ?_, ?_, ?_⟩
      · intro hp
        obtain ⟨hcells, hcount, hgo, hwin⟩ := h1 hp
        exact ⟨fun p => ⟨(hmine p).trans (hcells p).1, (hrev p).trans (hcells p).2.1,
          (hadj p).trans (hcells p).2.2⟩, hcount, hgo, hwin⟩
      · exact Board.AdjOK_transfer h2 rfl rfl hmine hadj
      · intro hwin
        show b.revealed_count = _
        rw [h3 hwin]
        apply List.countP_congr
        intro p _
        rw [Board.withCells_cells, hrev p, hmine p]
      · intro hgo hwin p hcontra
        obtain ⟨hrevp, hflagp⟩ := hcontra
        rw [Board.withCells_cells] at hrevp hflagp
        rw [hrev p] at hrevp
        by_cases hp : p = (col, row)
        · rw [hp] at hrevp
          exact absurd hrevp (by simp [hrevt'])
        · rw [hne p hp] at hflagp
          exact h4 hgo hwin p ⟨hrevp, hflagp⟩
  · have hin' : b.is_inbounds col row = false := by simpa using hin
    rw [Board.toggle_flag_oob hin']
    exact hI

/-! ### Pointwise lemmas for the loss branch -/

theorem Board.loseAt_scalars (b : Board) (t : Pos) :
    (b.loseAt t).cols = b.cols ∧ (b.loseAt t).rows = b.rows ∧
    (b.loseAt t).num_mines = b.num_mines ∧ (b.loseAt t).mines_placed = b.mines_placed ∧
    (b.loseAt t).revealed_count = b.revealed_count ∧
    (b.loseAt t).game_over = true ∧ (b.loseAt t).win = b.win :=
  ⟨rfl, rfl, rfl, rfl, rfl, rfl, rfl⟩

theorem Board.loseAt_mine (b : Board) (t p : Pos) :
    ((b.loseAt t).cells p).is_mine = (b.cells p).is_mine := by
  unfold Board.loseAt
  rw [Board.reveal_all_mines_mine]
  show ((updFn b.cells t { b.cells t with is_revealed := true }) p).is_mine = _
  by_cases hp : p = t
  · rw [hp, updFn_same]
  · rw [updFn_ne _ _ _ hp]

theorem Board.loseAt_flag (b : Board) (t p : Pos) :
    ((b.loseAt t).cells p).is_flagged = (b.cells p).is_flagged := by
  unfold Board.loseAt
  rw [Board.reveal_all_mines_flag]
  show ((updFn b.cells t { b.cells t with is_revealed := true }) p).is_flagged = _
  by_cases hp : p = t
  · rw [hp, updFn_same]
  · rw [updFn_ne _ _ _ hp]

theorem Board.loseAt_adj (b : Board) (t p : Pos) :
    ((b.loseAt t).cells p).adjacent = (b.cells p).adjacent := by
  unfold Board.loseAt
  rw [Board.reveal_all_mines_adj]
  show ((updFn b.cells t { b.cells t with is_revealed := true }) p).adjacent = _
  by_cases hp : p = t
  · rw [hp, updFn_same]
  · rw [updFn_ne _ _ _ hp]

theorem Board.loseAt_rev (b : Board) (t p : Pos) :
    ((b.loseAt t).cells p).is_revealed =
      (decide (p = t) || (b.cells p).is_revealed ||
        (b.is_inbounds p.1 p.2 && (b.cells p).is_mine)) := by
  unfold Board.loseAt
  rw [Board.reveal_all_mines_rev]
  by_cases hp : p = t
  · simp [updFn, hp, Board.is_inbounds]
  · simp [updFn, hp, Board.is_inbounds]

/-! ### The invariant is preserved by `reveal` -/

theorem Board.inv_reveal_placed {b : Board} (shuf : List Pos → List Pos) {col row : Int}
    (hin : b.is_inbounds col row = true) (hp : b.mines_placed = true) (hI : b.Inv) :
    (b.reveal shuf col row).Inv := by
  obtain ⟨h1, h2, h3, h4⟩ := hI
  by_cases hg : ((b.cells (col, row)).is_revealed || (b.cells (col, row)).is_flagged) = true
  · rw [Board.reveal_guarded shuf hin hp hg]
    exact ⟨h1, h2, h3, h4⟩
  · have hg2 : ((b.cells (col, row)).is_revealed || (b.cells (col, row)).is_flagged) = false := by
      simpa using hg
    obtain ⟨hr, hf⟩ := Bool.or_eq_false_iff.mp hg2
    by_cases hm : (b.cells (col, row)).is_mine = true
    · rw [Board.reveal_mine_branch shuf hin hp hr hf hm]
      have hsc := Board.loseAt_scalars b (col, row)
      refine ⟨?_, ?_, ?_, ?_⟩
      · intro hcontra
        rw [hsc.2.2.2.1, hp] at hcontra
        cases hcontra
      · exact Board.AdjOK_transfer h2 hsc.1 hsc.2.1
          (fun p => Board.loseAt_mine b (col, row) p)
          (fun p => Board.loseAt_adj b (col, row) p)
      · intro hwin
        have hbwin : b.win = false := by
          rw [← hsc.2.2.2.2.2.2]
          exact hwin
        show (b.loseAt (col, row)).revealed_count = _
        rw [hsc.2.2.2.2.1, h3 hbwin,
          (show (b.loseAt (col, row)).allPositions = b.allPositions from rfl)]
        apply List.countP_congr
        intro q _
        rw [Board.loseAt_mine b (col, row) q, Board.loseAt_rev b (col, row) q]
        by_cases hqm : (b.cells q).is_mine = true
        · simp [hqm]
        · have hqm2 : (b.cells q).is_mine = false := by simpa using hqm
          have hqt : ¬(q = (col, row)) := fun h => by
            rw [h, hm] at hqm2
            cases hqm2
          simp [hqm2, hqt]
      · intro hgo _
        rw [hsc.2.2.2.2.2.1] at hgo
        cases hgo
    · have hm2 : (b.cells (col, row)).is_mine = false := by simpa using hm
      rw [Board.reveal_flood_branch shuf hin hp hr hf hm2]
      have hscal := b.floodLoop_scalars (9 * (b.cols * b.rows) + 1) [(col, row)]
      have hcw := Board.check_win_scalars
        (b.floodLoop (9 * (b.cols * b.rows) + 1) [(col, row)])
      refine ⟨?_, ?_, ?_, ?_⟩
      · intro hcontra
        rw [hcw.2.2.2, hscal.2.2.2.1, hp] at hcontra
        cases hcontra
      · refine Board.AdjOK_transfer h2 (hcw.1.trans hscal.1) (hcw.2.1.trans hscal.2.1) ?_ ?_
        · intro p
          exact (Board.check_win_mine _ p).trans (b.floodLoop_cell_frame _ _ p).1
        · intro p
          exact (Board.check_win_adj _ p).trans (b.floodLoop_cell_frame _ _ p).2.2
      · intro hwin
        have hcond : ¬Board.CWCond (b.floodLoop (9 * (b.cols * b.rows) + 1) [(col, row)]) := by
          intro hc
          have hw := (Board.check_win_win
            (b.floodLoop (9 * (b.cols * b.rows) + 1) [(col, row)])).mpr (Or.inr hc)
          rw [hwin] at hw
          cases hw
        have hReq := Board.check_win_not_fired hcond
        rw [hReq]
        have hbwin : b.win = false := by
          rw [← hscal.2.2.2.2.2]
          rw [hReq] at hwin
          exact hwin
        refine (Board.floodLoop_count _ b [(col, row)] ?_ ?_ h2 (h3 hbwin)).1
        · intro q hq
          rcases List.mem_singleton.mp hq with rfl
          exact hin
        · intro q hq
          rcases List.mem_singleton.mp hq with rfl
          exact hm2
      · intro hgo hwin p hcontra
        obtain ⟨hrevp, hflagp⟩ := hcontra
        have hcond : ¬Board.CWCond (b.floodLoop (9 * (b.cols * b.rows) + 1) [(col, row)]) := by
          intro hc
          have hw := (Board.check_win_win
            (b.floodLoop (9 * (b.cols * b.rows) + 1) [(col, row)])).mpr (Or.inr hc)
          rw [hwin] at hw
          cases hw
        have hReq := Board.check_win_not_fired hcond
        rw [hReq] at hrevp hflagp hgo
        have hbgo : b.game_over = false := by
          rw [← hscal.2.2.2.2.1]
          exact hgo
        have hbwin : b.win = false := by
          rw [← hscal.2.2.2.2.2]
          rw [hReq] at hwin
          exact hwin
        rw [(b.floodLoop_cell_frame (9 * (b.cols * b.rows) + 1) [(col, row)] p).2.1] at hflagp
        rcases (b.flood_from_start (col, row) (9 * (b.cols * b.rows) + 1)).rev_char p hrevp with
          hcase | ⟨_, hflagb, _⟩
        · exact h4 hbgo hbwin p ⟨hcase, hflagp⟩
        · rw [hflagb] at hflagp
          cases hflagp

theorem Board.inv_reveal {b : Board} (shuf : List Pos → List Pos) (col row : Int)
    (hI : b.Inv) : (b.reveal shuf col row).Inv := by
  by_cases hin : b.is_inbounds col row = true
  · by_cases hp : b.mines_placed = true
    · exact Board.inv_reveal_placed shuf hin hp hI
    · have hp2 : b.mines_placed = false := by simpa using hp
      rw [Board.reveal_unplaced shuf hin hp2]
      exact Board.inv_reveal_placed shuf
        (by rw [Board.place_mines_inbounds]; exact hin)
        (Board.place_mines_placed b shuf col row)
        (Board.inv_place shuf col row hI hp2)
  · have hin2 : b.is_inbounds col row = false := by simpa using hin
    rw [Board.reveal_oob shuf hin2]
    exact hI

theorem Board.inv_hint {b : Board} (shuf : List Pos → List Pos) (pick : List Pos → Pos)
    (hI : b.Inv) : (b.hint_reveal shuf pick).Inv := by
  by_cases h1 : (!b.mines_placed || b.game_over || b.win) = true
  · rw [Board.hint_reveal_guard shuf pick h1]
    exact hI
  · have h1f : (!b.mines_placed || b.game_over || b.win) = false := by simpa using h1
    by_cases h2 : b.safeUnrevealed = []
    · rw [Board.hint_reveal_empty shuf pick h2]
      exact hI
    · rw [Board.hint_reveal_act shuf pick h1f h2]
      exact Board.inv_reveal shuf _ _ hI

theorem Board.inv_step {b b' : Board} (h : Board.Step b b') (hI : b.Inv) : b'.Inv := by
  cases h with
  | reveal shuf hshuf col row => exact Board.inv_reveal shuf col row hI
  | toggle_flag col row => exact Board.inv_toggle col row hI
  | hint_reveal shuf pick hshuf hpick => exact Board.inv_hint shuf pick hI

theorem Board.reach_inv {b : Board} (h : b.Reachable) : b.Inv := by
  obtain ⟨cols, rows, mines, hr⟩ := h
  induction hr with
  | refl => exact Board.inv_new cols rows mines
  | tail _ hstep ih => exact Board.inv_step hstep ih

/-! ### Further helper lemmas for the claims -/

theorem headPick_mem (l : List Pos) (h : l ≠ []) : headPick l ∈ l := by
  cases l with
  | nil => exact absurd rfl h
  | cons a t => simp [headPick]

theorem Board.toggle_flag_scalars (b : Board) (col row : Int) :
    (b.toggle_flag col row).cols = b.cols ∧ (b.toggle_flag col row).rows = b.rows ∧
    (b.toggle_flag col row).num_mines = b.num_mines ∧
    (b.toggle_flag col row).mines_placed = b.mines_placed ∧
    (b.toggle_flag col row).revealed_count = b.revealed_count ∧
    (b.toggle_flag col row).game_over = b.game_over ∧
    (b.toggle_flag col row).win = b.win := by
  unfold Board.toggle_flag
  split
  · exact ⟨rfl, rfl, rfl, rfl, rfl, rfl, rfl⟩
  · split
    · exact ⟨rfl, rfl, rfl, rfl, rfl, rfl, rfl⟩
    · exact ⟨rfl, rfl, rfl, rfl, rfl, rfl, rfl⟩

theorem Board.AdjOK_revealOne {b : Board} (hadj : b.AdjOK) (t : Pos) :
    (b.revealOne t).AdjOK := by
  intro q hqin hqnm
  rw [b.revealOne_adj t q, hadj q hqin (by rw [← b.revealOne_mine t q]; exact hqnm)]
  apply List.countP_congr
  intro r _
  rw [b.revealOne_mine t r]

theorem Board.no_mine_neighbors {b : Board} (hadj : b.AdjOK) {q : Pos}
    (hqin : b.is_inbounds q.1 q.2 = true) (hqnm : (b.cells q).is_mine = false)
    (hz : (b.cells q).adjacent = 0) :
    ∀ r ∈ b.neighborsList q.1 q.2, (b.cells r).is_mine = false := by
  intro r hr
  have h0 : (b.neighborsList q.1 q.2).countP (fun x => (b.cells x).is_mine) = 0 := by
    rw [← hadj q hqin hqnm]
    exact hz
  have hmem := List.countP_eq_zero.mp h0 r hr
  simpa using hmem

/-- On a board with correct adjacency counts, the flood fill started from
non-mine cells never reveals a mine. -/
theorem Board.floodLoop_mines :
    ∀ (fuel : Nat) (b : Board) (stack : List Pos),
      (∀ q ∈ stack, b.is_inbounds q.1 q.2 = true) →
      (∀ q ∈ stack, (b.cells q).is_mine = false) →
      b.AdjOK →
      ∀ p : Pos, (b.cells p).is_mine = true →
        ((b.floodLoop fuel stack).cells p).is_revealed = (b.cells p).is_revealed := by
  intro fuel
  induction fuel with
  | zero =>
    intro b stack _ _ _ p _
    cases stack <;> simp [Board.floodLoop]
  | succ n ih =>
    intro b stack hin hnm hadj p hpm
    cases stack with
    | nil => simp [Board.floodLoop]
    | cons q rest =>
      simp only [Board.floodLoop]
      by_cases hskip : ((b.cells q).is_revealed || (b.cells q).is_flagged) = true
      · rw [if_pos hskip]
        exact ih b rest (fun r hr => hin r (List.mem_cons_of_mem q hr))
          (fun r hr => hnm r (List.mem_cons_of_mem q hr)) hadj p hpm
      · rw [if_neg hskip]
        have hqin : b.is_inbounds q.1 q.2 = true := hin q (List.mem_cons_self q rest)
        have hqnm : (b.cells q).is_mine = false := hnm q (List.mem_cons_self q rest)
        have hne : p ≠ q := by
          intro h
          rw [h, hqnm] at hpm
          cases hpm
        have hadj' : (b.revealOne q).AdjOK := Board.AdjOK_revealOne hadj q
        have hrestin : ∀ r ∈ rest, (b.revealOne q).is_inbounds r.1 r.2 = true :=
          fun r hr => hin r (List.mem_cons_of_mem q hr)
        have hrestnm : ∀ r ∈ rest, ((b.revealOne q).cells r).is_mine = false :=
          fun r hr => by
            rw [b.revealOne_mine q r]
            exact hnm r (List.mem_cons_of_mem q hr)
        have hpm' : ((b.revealOne q).cells p).is_mine = true := by
          rw [b.revealOne_mine q p]
          exact hpm
        by_cases hadjq : (b.cells q).adjacent = 0
        · rw [if_pos hadjq]
          have hmines0 := Board.no_mine_neighbors hadj hqin hqnm hadjq
          have hin' : ∀ r ∈ ((b.revealOne q).floodPushes q).reverse ++ rest,
              (b.revealOne q).is_inbounds r.1 r.2 = true := by
            intro r hr
            rcases List.mem_append.mp hr with h | h
            · exact (b.revealOne q).mem_neighborsList_inbounds
                (List.mem_filter.mp (List.mem_reverse.mp h)).1
            · exact hrestin r h
          have hnm' : ∀ r ∈ ((b.revealOne q).floodPushes q).reverse ++ rest,
              ((b.revealOne q).cells r).is_mine = false := by
            intro r hr
            rcases List.mem_append.mp hr with h | h
            · rw [b.revealOne_mine q r]
              exact hmines0 r (List.mem_filter.mp (List.mem_reverse.mp h)).1
            · exact hrestnm r h
          rw [ih (b.revealOne q) _ hin' hnm' hadj' p hpm']
          exact b.revealOne_rev_ne hne
        · rw [if_neg hadjq]
          rw [ih (b.revealOne q) rest hrestin hrestnm hadj' p hpm']
          exact b.revealOne_rev_ne hne

/-- A reveal whose target is not a mine (on a placed board with correct
adjacency) never reveals a mine and never changes `game_over`. -/
theorem Board.reveal_safe_placed {b : Board} (shuf : List Pos → List Pos) {col row : Int}
    (hadj : b.AdjOK) (hp : b.mines_placed = true)
    (hm : (b.cells (col, row)).is_mine = false) :
    (b.reveal shuf col row).game_over = b.game_over ∧
    ∀ p : Pos, (b.cells p).is_mine = true →
      ((b.reveal shuf col row).cells p).is_revealed = (b.cells p).is_revealed := by
  by_cases hin : b.is_inbounds col row = true
  · by_cases hg : ((b.cells (col, row)).is_revealed || (b.cells (col, row)).is_flagged) = true
    · rw [Board.reveal_guarded shuf hin hp hg]
      exact ⟨rfl, fun _ _ => rfl⟩
    · have hg2 : ((b.cells (col, row)).is_revealed ||
          (b.cells (col, row)).is_flagged) = false := by simpa using hg
      obtain ⟨hr, hf⟩ := Bool.or_eq_false_iff.mp hg2
      rw [Board.reveal_flood_branch shuf hin hp hr hf hm]
      have hscal := b.floodLoop_scalars (9 * (b.cols * b.rows) + 1) [(col, row)]
      have hsing_in : ∀ q ∈ [(col, row)], b.is_inbounds q.1 q.2 = true := by
        intro q hq
        rcases List.mem_singleton.mp hq with rfl
        exact hin
      have hsing_nm : ∀ q ∈ [(col, row)], (b.cells q).is_mine = false := by
        intro q hq
        rcases List.mem_singleton.mp hq with rfl
        exact hm
      constructor
      · exact (Board.check_win_game_over _).trans hscal.2.2.2.2.1
      · intro p hpm
        have hmid := Board.floodLoop_mines (9 * (b.cols * b.rows) + 1) b [(col, row)]
          hsing_in hsing_nm hadj p hpm
        have hmidm : ((b.floodLoop (9 * (b.cols * b.rows) + 1) [(col, row)]).cells p).is_mine
            = true := by
          rw [(b.floodLoop_cell_frame _ _ p).1]
          exact hpm
        have hcw := Board.check_win_rev_char
          (b.floodLoop (9 * (b.cols * b.rows) + 1) [(col, row)]) p
        cases hcwrev : (((b.floodLoop (9 * (b.cols * b.rows) + 1)
            [(col, row)]).check_win.cells p).is_revealed) with
        | true =>
          rcases hcw.mp hcwrev with h | ⟨_, _, hmine0⟩
          · rw [h] at hmid
            exact hmid
          · rw [hmidm] at hmine0
            cases hmine0
        | false =>
          cases hbrev : (b.cells p).is_revealed with
          | true =>
            have : ((b.floodLoop (9 * (b.cols * b.rows) + 1)
                [(col, row)]).check_win.cells p).is_revealed = true := by
              rw [hcw]
              exact Or.inl (by rw [hmid]; exact hbrev)
            rw [this] at hcwrev
            cases hcwrev
          | false => rfl
  · have hin2 : b.is_inbounds col row = false := by simpa using hin
    rw [Board.reveal_oob shuf hin2]
    exact ⟨rfl, fun _ _ => rfl⟩

/-- Once set, `game_over` and `win` survive any `reveal`; and a `reveal` on a
lost game never sets `win`. -/
theorem Board.reveal_monotone_placed {b : Board} (shuf : List Pos → List Pos)
    {col row : Int} (hin : b.is_inbounds col row = true) (hp : b.mines_placed = true) :
    (b.game_over = true → (b.reveal shuf col row).game_over = true) ∧
    (b.win = true → (b.reveal shuf col row).win = true) ∧
    (b.game_over = true → (b.reveal shuf col row).win = b.win) := by
  by_cases hg : ((b.cells (col, row)).is_revealed || (b.cells (col, row)).is_flagged) = true
  · rw [Board.reveal_guarded shuf hin hp hg]
    exact ⟨fun h => h, fun h => h, fun _ => rfl⟩
  · have hg2 : ((b.cells (col, row)).is_revealed ||
        (b.cells (col, row)).is_flagged) = false := by simpa using hg
    obtain ⟨hr, hf⟩ := Bool.or_eq_false_iff.mp hg2
    by_cases hm : (b.cells (col, row)).is_mine = true
    · rw [Board.reveal_mine_branch shuf hin hp hr hf hm]
      have hsc := Board.loseAt_scalars b (col, row)
      exact ⟨fun _ => hsc.2.2.2.2.2.1,
        fun h => by rw [hsc.2.2.2.2.2.2]; exact h,
        fun _ => hsc.2.2.2.2.2.2⟩
    · have hm2 : (b.cells (col, row)).is_mine = false := by simpa using hm
      rw [Board.reveal_flood_branch shuf hin hp hr hf hm2]
      have hscal := b.floodLoop_scalars (9 * (b.cols * b.rows) + 1) [(col, row)]
      refine ⟨?_, ?_, ?_⟩
      · intro h
        rw [Board.check_win_game_over, hscal.2.2.2.2.1]
        exact h
      · intro h
        refine (Board.check_win_win _).mpr (Or.inl ?_)
        rw [hscal.2.2.2.2.2]
        exact h
      · intro h
        have hcond : ¬Board.CWCond (b.floodLoop (9 * (b.cols * b.rows) + 1) [(col, row)]) := by
          rintro ⟨_, hg0⟩
          rw [hscal.2.2.2.2.1, h] at hg0
          cases hg0
        rw [Board.check_win_not_fired hcond, hscal.2.2.2.2.2]

theorem Board.reveal_monotone (b : Board) (shuf : List Pos → List Pos) (col row : Int) :
    (b.game_over = true → (b.reveal shuf col row).game_over = true) ∧
    (b.win = true → (b.reveal shuf col row).win = true) ∧
    (b.game_over = true → (b.reveal shuf col row).win = b.win) := by
  by_cases hin : b.is_inbounds col row = true
  · by_cases hp : b.mines_placed = true
    · exact Board.reveal_monotone_placed shuf hin hp
    · have hp2 : b.mines_placed = false := by simpa using hp
      rw [Board.reveal_unplaced shuf hin hp2]
      have hmp := Board.reveal_monotone_placed (b := b.place_mines shuf col row) shuf
        (by rw [Board.place_mines_inbounds]; exact hin)
        (Board.place_mines_placed b shuf col row)
      have hpsc := Board.place_mines_scalars b shuf col row
      refine ⟨?_, ?_, ?_⟩
      · intro h
        exact hmp.1 (by rw [hpsc.2.2.2.2.1]; exact h)
      · intro h
        exact hmp.2.1 (by rw [hpsc.2.2.2.2.2.1]; exact h)
      · intro h
        rw [hmp.2.2 (by rw [hpsc.2.2.2.2.1]; exact h), hpsc.2.2.2.2.2.1]
  · have hin2 : b.is_inbounds col row = false := by simpa using hin
    rw [Board.reveal_oob shuf hin2]
    exact ⟨fun h => h, fun h => h, fun _ => rfl⟩

/-! ### Reachability of the concrete example boards -/

theorem bLoss_reachable : bLoss.Reachable :=
  ⟨4, 1, 1,
    Relation.ReflTransGen.tail
      (Relation.ReflTransGen.single
        (Board.Step.reveal (Board.new 4 1 1) id (fun l => List.Perm.refl l) 0 0))
      (Board.Step.reveal ((Board.new 4 1 1).reveal id 0 0) id (fun l => List.Perm.refl l) 2 0)⟩

theorem bWinFlag_reachable : bWinFlag.Reachable :=
  ⟨3, 1, 2,
    Relation.ReflTransGen.tail
      (Relation.ReflTransGen.single (Board.Step.toggle_flag (Board.new 3 1 2) 1 0))
      (Board.Step.reveal ((Board.new 3 1 2).toggle_flag 1 0) id (fun l => List.Perm.refl l)
        0 0)⟩

theorem bWin_reachable : bWin.Reachable :=
  ⟨5, 1, 2,
    Relation.ReflTransGen.tail
      (Relation.ReflTransGen.single
        (Board.Step.reveal (Board.new 5 1 2) id (fun l => List.Perm.refl l) 0 0))
      (Board.Step.reveal ((Board.new 5 1 2).reveal id 0 0) id (fun l => List.Perm.refl l)
        4 0)⟩

theorem bBoth_reachable : bBoth.Reachable := by
  obtain ⟨cols, rows, mines, h⟩ := bWin_reachable
  exact ⟨cols, rows, mines,
    Relation.ReflTransGen.tail h
      (Board.Step.reveal bWin id (fun l => List.Perm.refl l) 2 0)⟩

theorem bSix_reachable : bSix.Reachable :=
  ⟨6, 1, 1,
    Relation.ReflTransGen.single
      (Board.Step.reveal (Board.new 6 1 1) id (fun l => List.Perm.refl l) 1 0)⟩

theorem bSixFlag_reachable : bSixFlag.Reachable := by
  obtain ⟨cols, rows, mines, h⟩ := bSix_reachable
  exact ⟨cols, rows, mines,
    Relation.ReflTransGen.tail h (Board.Step.toggle_flag bSix 4 0)⟩

/-! ### Claims C1 to C4 -/

/-- C1, counterexample: in the reachable lost game `bLoss`, `revealed_count`
is 2 while three cells have `is_revealed = true` (the mine revealed by the
loss sweep is never counted), so in this reachable state `revealed_count`
does not equal the number of cells with `is_revealed = true`. -/
theorem C1_counterexample :
    bLoss.Reachable ∧
      bLoss.revealed_count ≠
        bLoss.allPositions.countP (fun p => (bLoss.cells p).is_revealed) :=
  ⟨bLoss_reachable, by decide⟩

/-- C1, amended: in every reachable state in which `win` is still false,
`revealed_count` equals the number of cells that are revealed and are not
mines (the loss sweep reveals mines without counting them; after the win
sweep, flagged cells force-revealed by `_check_win` are likewise not
counted). -/
theorem C1_amended_theorem (b : Board) (hreach : b.Reachable) (hwin : b.win = false) :
    b.revealed_count =
      b.allPositions.countP
        (fun p => (b.cells p).is_revealed && !(b.cells p).is_mine) :=
  (Board.reach_inv hreach).2.2.1 hwin

/-- C1, witness: the amended count identity holds at the concrete reachable
lost game `bLoss`. -/
theorem C1_witness :
    bLoss.revealed_count =
      bLoss.allPositions.countP
        (fun p => (bLoss.cells p).is_revealed && !(bLoss.cells p).is_mine) :=
  C1_amended_theorem bLoss bLoss_reachable (by decide)

/-- C2, counterexample: `toggle_flag` has no `game_over` guard, so in the
reachable lost game `bLoss` a subsequent `toggle_flag` call changes the
state, contradicting "every subsequent reveal, toggle_flag, or hint_reveal
call leaves the entire Board state unchanged". -/
theorem C2_counterexample :
    bLoss.Reachable ∧ bLoss.game_over = true ∧ bLoss.toggle_flag 3 0 ≠ bLoss := by
  refine ⟨bLoss_reachable, by decide, ?_⟩
  intro h
  have h2 : ((bLoss.toggle_flag 3 0).cells (3, 0)).is_flagged =
      (bLoss.cells (3, 0)).is_flagged :=
    congrArg (fun bb => (bb.cells (3, 0)).is_flagged) h
  exact absurd h2 (by decide)

/-- C2, amended: when a reveal hits a mine (in-bounds, mines placed, target
unrevealed, unflagged, a mine), `game_over` becomes true and every in-bounds
mine cell is revealed; subsequent `hint_reveal` calls are no-ops, but
`reveal` and `toggle_flag` are not guarded by `game_over` and can still
mutate the state. -/
theorem C2_amended_theorem :
    (∀ (b : Board) (shuf : List Pos → List Pos) (col row : Int),
      b.is_inbounds col row = true → b.mines_placed = true →
      (b.cells (col, row)).is_revealed = false →
      (b.cells (col, row)).is_flagged = false →
      (b.cells (col, row)).is_mine = true →
      (b.reveal shuf col row).game_over = true ∧
        ∀ p : Pos, b.is_inbounds p.1 p.2 = true → (b.cells p).is_mine = true →
          ((b.reveal shuf col row).cells p).is_revealed = true) ∧
    (∀ (b : Board) (shuf : List Pos → List Pos) (pick : List Pos → Pos),
      b.game_over = true → b.hint_reveal shuf pick = b) := by
  constructor
  · intro b shuf col row hin hp hr hf hm
    rw [Board.reveal_mine_branch shuf hin hp hr hf hm]
    refine ⟨(Board.loseAt_scalars b (col, row)).2.2.2.2.2.1, ?_⟩
    intro p hpin hpm
    rw [Board.loseAt_rev]
    simp [hpin, hpm]
  · intro b shuf pick hgo
    exact Board.hint_reveal_guard shuf pick (by simp [hgo])

/-- C2, witness: revealing the hidden mine of the won game `bWin` sets
`game_over`, and `hint_reveal` is a no-op on the lost game `bLoss`. -/
theorem C2_witness :
    (bWin.reveal id 2 0).game_over = true ∧
      bLoss.hint_reveal id headPick = bLoss :=
  ⟨(C2_amended_theorem.1 bWin id 2 0 (by decide) (by decide) (by decide) (by decide)
      (by decide)).1,
   C2_amended_theorem.2 bLoss id headPick (by decide)⟩

/-- C3, counterexample: in the reachable won game `bWinFlag` the cell `(1,0)`
is simultaneously revealed and flagged — the `_check_win` sweep reveals
flagged cells — so revealed/flagged exclusivity fails in reachable states. -/
theorem C3_counterexample :
    bWinFlag.Reachable ∧ (bWinFlag.cells (1, 0)).is_revealed = true ∧
      (bWinFlag.cells (1, 0)).is_flagged = true :=
  ⟨bWinFlag_reachable, by decide, by decide⟩

/-- C3, amended: in every reachable state with `game_over = false` and
`win = false`, no cell is both revealed and flagged (only the terminal
`_reveal_all_mines` and `_check_win` sweeps can reveal a flagged cell), and
`toggle_flag` on a revealed cell is a no-op. -/
theorem C3_amended_theorem :
    (∀ b : Board, b.Reachable → b.game_over = false → b.win = false →
      ∀ p : Pos, ¬((b.cells p).is_revealed = true ∧ (b.cells p).is_flagged = true)) ∧
    (∀ (b : Board) (col row : Int), b.is_inbounds col row = true →
      (b.cells (col, row)).is_revealed = true → b.toggle_flag col row = b) :=
  ⟨fun _ hreach => (Board.reach_inv hreach).2.2.2,
   fun _ _ _ hin hrev => Board.toggle_flag_revealed hin hrev⟩

/-- C3, witness: exclusivity at cell `(2,0)` of the in-progress game `bSix`,
and the no-op of flagging the revealed cell `(1,0)` there. -/
theorem C3_witness :
    (¬((bSix.cells (2, 0)).is_revealed = true ∧ (bSix.cells (2, 0)).is_flagged = true)) ∧
      bSix.toggle_flag 1 0 = bSix :=
  ⟨C3_amended_theorem.1 bSix bSix_reachable (by decide) (by decide) (2, 0),
   C3_amended_theorem.2 bSix 1 0 (by decide) (by decide)⟩

/-- C4, counterexample: `reveal` is not guarded by `win`, so revealing the
still-hidden mine of the won game `bWin` sets `game_over` as well: in the
reachable state `bBoth` both `game_over` and `win` are true, contradicting
"at most one of them ever becomes true". -/
theorem C4_counterexample :
    bBoth.Reachable ∧ bBoth.game_over = true ∧ bBoth.win = true :=
  ⟨bBoth_reachable, by decide, by decide⟩

/-- C4, amended: `game_over` and `win` both start false and neither is ever
cleared by a step; `win` is never newly set while `game_over` is true; but
`game_over` can still be set after `win` (by revealing a mine), so the two
flags are not mutually exclusive. -/
theorem C4_amended_theorem :
    (∀ cols rows mines : Nat,
      (Board.new cols rows mines).game_over = false ∧
        (Board.new cols rows mines).win = false) ∧
    (∀ b b' : Board, Board.Step b b' →
      (b.game_over = true → b'.game_over = true) ∧
      (b.win = true → b'.win = true) ∧
      (b.game_over = true → b'.win = b.win)) := by
  constructor
  · intro cols rows mines
    exact ⟨rfl, rfl⟩
  · intro b b' hstep
    cases hstep with
    | reveal shuf hshuf col row => exact Board.reveal_monotone b shuf col row
    | toggle_flag col row =>
      have hsc := Board.toggle_flag_scalars b col row
      exact ⟨fun h => by rw [hsc.2.2.2.2.2.1]; exact h,
        fun h => by rw [hsc.2.2.2.2.2.2]; exact h,
        fun _ => hsc.2.2.2.2.2.2⟩
    | hint_reveal shuf pick hshuf hpick =>
      by_cases h1 : (!b.mines_placed || b.game_over || b.win) = true
      · rw [Board.hint_reveal_guard shuf pick h1]
        exact ⟨fun h => h, fun h => h, fun _ => rfl⟩
      · have h1f : (!b.mines_placed || b.game_over || b.win) = false := by simpa using h1
        have hgo : b.game_over = false := (Bool.or_eq_false_iff.mp
          (Bool.or_eq_false_iff.mp h1f).1).2
        have hwin : b.win = false := (Bool.or_eq_false_iff.mp h1f).2
        exact ⟨fun h => absurd h (by simp [hgo]), fun h => absurd h (by simp [hwin]),
          fun h => absurd h (by simp [hgo])⟩

/-- C4, witness: the flags start false on a fresh board, and `game_over`
survives a `toggle_flag` step applied to the lost game `bLoss`. -/
theorem C4_witness :
    ((Board.new 2 2 1).game_over = false ∧ (Board.new 2 2 1).win = false) ∧
      (bLoss.toggle_flag 0 0).game_over = true :=
  ⟨C4_amended_theorem.1 2 2 1,
   (C4_amended_theorem.2 bLoss (bLoss.toggle_flag 0 0)
      (Board.Step.toggle_flag bLoss 0 0)).1 (by decide)⟩

/-! ### Claims C5 to C10 -/

/-- C5: after `place_mines(safe_col, safe_row)` on a fresh board, exactly
`min(num_mines, pool_size)` cells are mines, where the pool is the grid
minus the forbidden set (the safe cell and its in-bounds neighbours), and no
forbidden cell is a mine. -/
theorem C5_theorem (cols rows mines : Nat) (shuf : List Pos → List Pos)
    (hshuf : ∀ l : List Pos, (shuf l).Perm l) (sc sr : Int) :
    ((Board.new cols rows mines).place_mines shuf sc sr).allPositions.countP
        (fun p => (((Board.new cols rows mines).place_mines shuf sc sr).cells p).is_mine) =
      min mines ((Board.new cols rows mines).minePool sc sr).length ∧
    ∀ p : Pos,
      (p = (sc, sr) ∨ p ∈ (Board.new cols rows mines).neighborsList sc sr) →
      (((Board.new cols rows mines).place_mines shuf sc sr).cells p).is_mine = false := by
  have hpoolnodup : ((Board.new cols rows mines).minePool sc sr).Nodup :=
    List.Nodup.filter _ ((Board.new cols rows mines).allPositions_nodup)
  have hTnodup : ((Board.new cols rows mines).mineList shuf sc sr).Nodup := by
    unfold Board.mineList
    exact List.Nodup.sublist (List.take_sublist _ _)
      (((hshuf _).nodup_iff).mpr hpoolnodup)
  have hTsub : ∀ x ∈ (Board.new cols rows mines).mineList shuf sc sr,
      x ∈ ((Board.new cols rows mines).place_mines shuf sc sr).allPositions := by
    intro x hx
    have hx2 : x ∈ (Board.new cols rows mines).minePool sc sr :=
      take_subset_of_perm (hshuf _) _ hx
    exact List.mem_of_mem_filter hx2
  constructor
  · have hf : ∀ x : Pos,
        (((Board.new cols rows mines).place_mines shuf sc sr).cells x).is_mine = true ↔
          x ∈ (Board.new cols rows mines).mineList shuf sc sr := by
      intro x
      rw [Board.place_mines_mine, Board.cellsAfterMines_mine]
      have hcell : ((Board.new cols rows mines).cells x).is_mine = false := rfl
      rw [hcell]
      simp
    have hlen := countP_eq_length_of_mem_iff
      (((Board.new cols rows mines).place_mines shuf sc sr).allPositions)
      ((Board.new cols rows mines).mineList shuf sc sr)
      (fun p => (((Board.new cols rows mines).place_mines shuf sc sr).cells p).is_mine)
      hf (((Board.new cols rows mines).place_mines shuf sc sr).allPositions_nodup)
      hTnodup hTsub
    rw [hlen]
    unfold Board.mineList
    rw [List.length_take, (hshuf _).length_eq]
    rfl
  · intro p hforb
    have hnp : p ∉ (Board.new cols rows mines).minePool sc sr := by
      intro hmem
      have hfac := (List.mem_filter.mp hmem).2
      simp only [decide_eq_true_eq] at hfac
      exact hfac hforb
    have hnT : p ∉ (Board.new cols rows mines).mineList shuf sc sr := by
      intro hmem
      exact hnp (take_subset_of_perm (hshuf _) _ hmem)
    rw [Board.place_mines_mine, Board.cellsAfterMines_mine]
    have hcell : ((Board.new cols rows mines).cells p).is_mine = false := rfl
    rw [hcell]
    simp [hnT]

/-- C5, witness: the mine count identity at a concrete placement (4-wide row,
one mine, identity shuffle, first click at `(0,0)`). -/
theorem C5_witness :
    ((Board.new 4 1 1).place_mines id 0 0).allPositions.countP
        (fun p => (((Board.new 4 1 1).place_mines id 0 0).cells p).is_mine) =
      min 1 ((Board.new 4 1 1).minePool 0 0).length :=
  (C5_theorem 4 1 1 id (fun l => List.Perm.refl l) 0 0).1

/-- C6: after `place_mines`, every in-bounds non-mine cell's `adjacent` field
equals the exact number of mines among its in-bounds Moore neighbours, a
value between 0 and 8. -/
theorem C6_theorem (b : Board) (shuf : List Pos → List Pos) (sc sr : Int) (p : Pos)
    (hin : (b.place_mines shuf sc sr).is_inbounds p.1 p.2 = true)
    (hnm : ((b.place_mines shuf sc sr).cells p).is_mine = false) :
    ((b.place_mines shuf sc sr).cells p).adjacent =
      ((b.place_mines shuf sc sr).neighborsList p.1 p.2).countP
        (fun q => ((b.place_mines shuf sc sr).cells q).is_mine) ∧
    ((b.place_mines shuf sc sr).cells p).adjacent ≤ 8 := by
  have h := b.place_mines_adjOK shuf sc sr p hin hnm
  refine ⟨h, ?_⟩
  rw [h]
  exact le_trans (List.countP_le_length _)
    ((b.place_mines shuf sc sr).length_neighborsList_le p.1 p.2)

/-- C6, witness: the adjacency identity at cell `(1,0)` of a concrete
placement. -/
theorem C6_witness :
    (((Board.new 4 1 1).place_mines id 0 0).cells (1, 0)).adjacent =
      (((Board.new 4 1 1).place_mines id 0 0).neighborsList 1 0).countP
        (fun q => (((Board.new 4 1 1).place_mines id 0 0).cells q).is_mine) ∧
    (((Board.new 4 1 1).place_mines id 0 0).cells (1, 0)).adjacent ≤ 8 :=
  C6_theorem (Board.new 4 1 1) id 0 0 (1, 0) (by decide) (by decide)

/-- C7, counterexample: in the reachable board `bSixFlag`, cell `(5,0)` is an
unrevealed, unflagged, non-mine, zero-adjacency cell and `(4,0)` belongs to
the connected zero-adjacency closure of `(5,0)` in the sense of the claim
(`ZReachF`, which ignores flags), yet revealing `(5,0)` leaves the flagged
border cell `(4,0)` unrevealed. -/
theorem C7_counterexample :
    bSixFlag.Reachable ∧ bSixFlag.mines_placed = true ∧
      (bSixFlag.cells (5, 0)).is_revealed = false ∧
      (bSixFlag.cells (5, 0)).is_flagged = false ∧
      (bSixFlag.cells (5, 0)).is_mine = false ∧
      (bSixFlag.cells (5, 0)).adjacent = 0 ∧
      ZReachF bSixFlag (5, 0) (4, 0) ∧
      ((bSixFlag.reveal id 5 0).cells (4, 0)).is_revealed = false := by
  refine ⟨bSixFlag_reachable, by decide, by decide, by decide, by decide, by decide,
    ?_, by decide⟩
  exact ZReachF.step ZReachF.refl (by decide) (by decide)

/-- C7, amended: on a board with mines placed and `win` not yet set, a reveal
at an unrevealed, unflagged, non-mine cell reveals exactly (i) the cells
already revealed, (ii) the unrevealed, unflagged cells reachable from the
target through unrevealed, unflagged zero-adjacency cells (`ZReach`: the
flood region restricted to unrevealed, unflagged cells, together with its
unrevealed, unflagged border), and (iii) when the reveal triggers the win
condition, every in-bounds non-mine cell (the win sweep).  Flagged or
already-revealed cells block the traversal, so the revealed set can be
strictly smaller than the full connected zero-adjacency region of the
claim. -/
theorem C7_amended_theorem (b : Board) (shuf : List Pos → List Pos) (col row : Int)
    (hp : b.mines_placed = true) (hwin : b.win = false)
    (hin : b.is_inbounds col row = true)
    (hr : (b.cells (col, row)).is_revealed = false)
    (hf : (b.cells (col, row)).is_flagged = false)
    (hm : (b.cells (col, row)).is_mine = false) :
    ∀ p : Pos,
      ((b.reveal shuf col row).cells p).is_revealed = true ↔
        ((b.cells p).is_revealed = true ∨
          ((b.cells p).is_revealed = false ∧ (b.cells p).is_flagged = false ∧
            ZReach b (col, row) p) ∨
          ((b.reveal shuf col row).win = true ∧ b.is_inbounds p.1 p.2 = true ∧
            (b.cells p).is_mine = false)) := by
  rw [Board.reveal_flood_branch shuf hin hp hr hf hm]
  intro p
  have hscal := b.floodLoop_scalars (9 * (b.cols * b.rows) + 1) [(col, row)]
  have hframe := b.floodLoop_cell_frame (9 * (b.cols * b.rows) + 1) [(col, row)] p
  have hflood := Board.flood_exact (b := b) (s := (col, row)) hin hr hf p
  rw [Board.check_win_rev_char]
  constructor
  · intro h
    rcases h with h | ⟨hc, hinp, hminep⟩
    · rcases hflood.mp h with h1 | h1
      · exact Or.inl h1
      · exact Or.inr (Or.inl h1)
    · refine Or.inr (Or.inr ⟨(Board.check_win_win _).mpr (Or.inr hc), ?_, ?_⟩)
      · rw [Board.is_inbounds_congr hscal.1 hscal.2.1] at hinp
        exact hinp
      · rw [hframe.1] at hminep
        exact hminep
  · intro h
    rcases h with h | h | ⟨hwin2, hinp, hminep⟩
    · exact Or.inl (hflood.mpr (Or.inl h))
    · exact Or.inl (hflood.mpr (Or.inr h))
    · rcases (Board.check_win_win _).mp hwin2 with h2 | h2
      · rw [hscal.2.2.2.2.2, hwin] at h2
        cases h2
      · refine Or.inr ⟨h2, ?_, ?_⟩
        · rw [Board.is_inbounds_congr hscal.1 hscal.2.1]
          exact hinp
        · rw [hframe.1]
          exact hminep

/-- C7, witness: the amended characterization instantiated at the reveal of
`(5,0)` in `bSixFlag` and observed at the flagged border cell `(4,0)`. -/
theorem C7_witness :
    ((bSixFlag.reveal id 5 0).cells (4, 0)).is_revealed = true ↔
      ((bSixFlag.cells (4, 0)).is_revealed = true ∨
        ((bSixFlag.cells (4, 0)).is_revealed = false ∧
          (bSixFlag.cells (4, 0)).is_flagged = false ∧
          ZReach bSixFlag (5, 0) (4, 0)) ∨
        ((bSixFlag.reveal id 5 0).win = true ∧
          bSixFlag.is_inbounds 4 0 = true ∧
          (bSixFlag.cells (4, 0)).is_mine = false)) :=
  C7_amended_theorem bSixFlag id 5 0 (by decide) (by decide) (by decide) (by decide)
    (by decide) (by decide) (4, 0)

/-- C8: on a reachable board, a reveal aimed at an in-bounds, already
revealed, non-mine cell leaves the entire board unchanged (mines are
necessarily already placed, and the revealed-or-flagged guard returns
early). -/
theorem C8_theorem (b : Board) (shuf : List Pos → List Pos) (col row : Int)
    (hreach : b.Reachable) (hin : b.is_inbounds col row = true)
    (hrev : (b.cells (col, row)).is_revealed = true)
    (hnm : (b.cells (col, row)).is_mine = false) :
    b.reveal shuf col row = b := by
  have hI := Board.reach_inv hreach
  have hp : b.mines_placed = true := by
    cases hpc : b.mines_placed with
    | true => rfl
    | false =>
      obtain ⟨hcells, _, _, _⟩ := hI.1 hpc
      rw [(hcells (col, row)).2.1] at hrev
      cases hrev
  exact Board.reveal_guarded shuf hin hp (by simp [hrev])

/-- C8, witness: re-revealing the already revealed cell `(1,0)` of `bSix`
leaves the board unchanged. -/
theorem C8_witness : bSix.reveal id 1 0 = bSix :=
  C8_theorem bSix id 1 0 bSix_reachable (by decide) (by decide) (by decide)

/-- C9: `reveal` and `toggle_flag` are no-ops on out-of-bounds coordinates
(for arbitrary integer arguments), and `hint_reveal` is a no-op when its
safe-cell pool is empty; all three are total Lean functions, so no call can
raise. -/
theorem C9_theorem :
    (∀ (b : Board) (shuf : List Pos → List Pos) (col row : Int),
      b.is_inbounds col row = false → b.reveal shuf col row = b) ∧
    (∀ (b : Board) (col row : Int),
      b.is_inbounds col row = false → b.toggle_flag col row = b) ∧
    (∀ (b : Board) (shuf : List Pos → List Pos) (pick : List Pos → Pos),
      b.safeUnrevealed = [] → b.hint_reveal shuf pick = b) :=
  ⟨fun _ shuf _ _ h => Board.reveal_oob shuf h,
   fun _ _ _ h => Board.toggle_flag_oob h,
   fun _ shuf pick h => Board.hint_reveal_empty shuf pick h⟩

/-- C9, witness: out-of-bounds reveal and flag on a fresh board, and a hint
on the finished game `bWin`, are all no-ops. -/
theorem C9_witness :
    (Board.new 2 2 1).reveal id (-1) 0 = Board.new 2 2 1 ∧
      (Board.new 2 2 1).toggle_flag 2 0 = Board.new 2 2 1 ∧
      bWin.hint_reveal id headPick = bWin :=
  ⟨C9_theorem.1 (Board.new 2 2 1) id (-1) 0 (by decide),
   C9_theorem.2.1 (Board.new 2 2 1) 2 0 (by decide),
   C9_theorem.2.2 bWin id headPick (by decide)⟩

/-- C10: on a reachable board, a reveal whose target is not a mine after the
lazy placement step (`afterPlacement`) reveals no mine cell and leaves
`game_over` unchanged; likewise every `hint_reveal` (whose choice function
picks from the safe pool) reveals no mine and leaves `game_over`
unchanged. -/
theorem C10_theorem :
    (∀ (b : Board) (shuf : List Pos → List Pos) (col row : Int),
      b.Reachable →
      ((b.afterPlacement shuf col row).cells (col, row)).is_mine = false →
      (b.reveal shuf col row).game_over = b.game_over ∧
        ∀ p : Pos, ((b.afterPlacement shuf col row).cells p).is_mine = true →
          ((b.reveal shuf col row).cells p).is_revealed = (b.cells p).is_revealed) ∧
    (∀ (b : Board) (shuf : List Pos → List Pos) (pick : List Pos → Pos),
      b.Reachable → (∀ l : List Pos, l ≠ [] → pick l ∈ l) →
      (b.hint_reveal shuf pick).game_over = b.game_over ∧
        ∀ p : Pos, (b.cells p).is_mine = true →
          ((b.hint_reveal shuf pick).cells p).is_revealed = (b.cells p).is_revealed) := by
  constructor
  · intro b shuf col row hreach hm
    cases hpc : b.mines_placed with
    | true =>
      have he : b.afterPlacement shuf col row = b := by
        simp [Board.afterPlacement, hpc]
      rw [he] at hm ⊢
      exact Board.reveal_safe_placed shuf (Board.reach_inv hreach).2.1 hpc hm
    | false =>
      have he : b.afterPlacement shuf col row = b.place_mines shuf col row := by
        simp [Board.afterPlacement, hpc]
      rw [he] at hm ⊢
      by_cases hin : b.is_inbounds col row = true
      · rw [Board.reveal_unplaced shuf hin hpc]
        have h2 := Board.reveal_safe_placed (b := b.place_mines shuf col row) shuf
          (b.place_mines_adjOK shuf col row) (Board.place_mines_placed b shuf col row) hm
        refine ⟨?_, ?_⟩
        · rw [h2.1]
          exact (Board.place_mines_scalars b shuf col row).2.2.2.2.1
        · intro p hpm
          rw [h2.2 p hpm]
          exact b.place_mines_rev shuf col row p
      · have hin2 : b.is_inbounds col row = false := by simpa using hin
        rw [Board.reveal_oob shuf hin2]
        exact ⟨rfl, fun _ _ => rfl⟩
  · intro b shuf pick hreach hpick
    by_cases h1 : (!b.mines_placed || b.game_over || b.win) = true
    · rw [Board.hint_reveal_guard shuf pick h1]
      exact ⟨rfl, fun _ _ => rfl⟩
    · have h1f : (!b.mines_placed || b.game_over || b.win) = false := by simpa using h1
      by_cases h2 : b.safeUnrevealed = []
      · rw [Board.hint_reveal_empty shuf pick h2]
        exact ⟨rfl, fun _ _ => rfl⟩
      · rw [Board.hint_reveal_act shuf pick h1f h2]
        have hmem := hpick _ h2
        have hfilter := List.mem_filter.mp hmem
        have hmine : (b.cells (pick b.safeUnrevealed)).is_mine = false := by
          have hb := hfilter.2
          simp only [Bool.and_eq_true, Bool.not_eq_true'] at hb
          exact hb.1.1
        have hp : b.mines_placed = true := by
          rcases Bool.or_eq_false_iff.mp h1f with ⟨h3, _⟩
          rcases Bool.or_eq_false_iff.mp h3 with ⟨h4, _⟩
          simpa using h4
        exact Board.reveal_safe_placed shuf (Board.reach_inv hreach).2.1 hp hmine

/-- C10, witness: the reveal of the safe cell `(5,0)` in `bSix` leaves
`game_over` unchanged. -/
theorem C10_witness : (bSix.reveal id 5 0).game_over = bSix.game_over :=
  (C10_theorem.1 bSix id 5 0 bSix_reachable (by decide)).1
